import Mathlib

/-!
Verification development for the iframe-compatibility scraper
(`src/main.py`).  The Python core is pattern-based text rewriting: a
detector over fifteen regular-expression signatures, a script rewriter
over eleven signature/replacement pairs, a meta-tag normalizer for
`X-Frame-Options` and `Content-Security-Policy` meta elements, and a
compatibility assessor.  The regular expressions only use literals,
`\s*`, negated single-character classes under `*`, and one-character
options (`=?`, `;?`), so they are embedded as token lists interpreted by
a greedy backtracking matcher that mirrors Python `re.search` / `re.sub`
semantics (leftmost match, greedy with backtracking, `IGNORECASE`,
non-overlapping global substitution continuing after each match).

The HTML parser and serializer are external collaborators (spec section
6); documents are modelled as node lists (script bodies, meta tags with
ordered attribute lists, and opaque other nodes), and functions that in
Python re-parse text receive the parsed meta list as an argument.
-/

namespace Scrape

/-- Case-insensitive character comparison, modelling `re.IGNORECASE`. -/
def ciEq (x c : Char) : Bool := x.toLower == c.toLower

/-- One token of an embedded regular expression: a literal character, an
optional character (`c?`), or a starred single-character class. -/
inductive RTok where
  | lit (c : Char)
  | opt (c : Char)
  | star (p : Char → Bool)

/-- First-success choice on optional match results (backtracking order). -/
def ofirst (a b : Option (List Char)) : Option (List Char) :=
  match a with
  | some x => some x
  | none => b

/-- Fuelled matcher: try to match the token list at the start of the
character list, returning the remaining suffix on success.  Greedy with
backtracking, exactly the order Python's engine tries alternatives. -/
def matchToksF : Nat → List RTok → List Char → Option (List Char)
  | 0, _, _ => none
  | _ + 1, [], s => some s
  | f + 1, RTok.lit c :: ts, s =>
      match s with
      | [] => none
      | x :: s' => if ciEq x c then matchToksF f ts s' else none
  | f + 1, RTok.opt c :: ts, s =>
      match s with
      | [] => matchToksF f ts []
      | x :: s' =>
          if ciEq x c then ofirst (matchToksF f ts s') (matchToksF f ts (x :: s'))
          else matchToksF f ts (x :: s')
  | f + 1, RTok.star p :: ts, s =>
      match s with
      | [] => matchToksF f ts []
      | x :: s' =>
          if p x then ofirst (matchToksF f (RTok.star p :: ts) s') (matchToksF f ts (x :: s'))
          else matchToksF f ts (x :: s')

/-- Match a token list at the start of a character list (enough fuel). -/
def matchToks (ts : List RTok) (s : List Char) : Option (List Char) :=
  matchToksF (ts.length + s.length + 1) ts s

/-- `re.search` existence: does the pattern match at some position? -/
def searchToks (ts : List RTok) : List Char → Bool
  | [] => (matchToks ts []).isSome
  | x :: s' => (matchToks ts (x :: s')).isSome || searchToks ts s'

/-- Fuelled global substitution: replace every leftmost non-overlapping
match by `repl`, continuing after each match (Python `re.sub`). -/
def subAllF (ts : List RTok) (repl : List Char) : Nat → List Char → List Char
  | 0, s => s
  | f + 1, s =>
      match matchToks ts s with
      | some r =>
          if r.length < s.length then repl ++ subAllF ts repl f r
          else
            repl ++
              (match s with
               | [] => []
               | x :: s' => x :: subAllF ts repl f s')
      | none =>
          match s with
          | [] => []
          | x :: s' => x :: subAllF ts repl f s'

/-- Global substitution with enough fuel. -/
def subAll (ts : List RTok) (repl : List Char) (s : List Char) : List Char :=
  subAllF ts repl (s.length + 1) s

/-- Python `\s` (ASCII whitespace class members). -/
def isPySpace (ch : Char) : Bool :=
  ch == ' ' || ch == '\t' || ch == '\n' || ch == '\r' || ch == '\x0b' || ch == '\x0c'

/-- `\s*` token. -/
def ws : RTok := RTok.star isPySpace

/-- A run of literal tokens. -/
def lits (s : String) : List RTok := s.data.map RTok.lit

/-- `[^c]*` token. -/
def neqCls (c : Char) : RTok := RTok.star (fun ch => ch != c)

/-- `!==?` — bang, equals, optional second equals. -/
def bangEq : List RTok := [RTok.lit '!', RTok.lit '=', RTok.opt '=']

/-- Head of `if\s*\(\s*window\s*!==?\s*window\.top\s*\)`. -/
def hdWinTop : List RTok :=
  lits "if" ++ [ws, RTok.lit '(', ws] ++ lits "window" ++ [ws] ++ bangEq ++ [ws] ++
    lits "window.top" ++ [ws, RTok.lit ')']

/-- Head of `if\s*\(\s*self\s*!==?\s*top\s*\)`. -/
def hdSelfTop : List RTok :=
  lits "if" ++ [ws, RTok.lit '(', ws] ++ lits "self" ++ [ws] ++ bangEq ++ [ws] ++
    lits "top" ++ [ws, RTok.lit ')']

/-- Head of `if\s*\(\s*parent\s*!==?\s*window\s*\)`. -/
def hdParentWin : List RTok :=
  lits "if" ++ [ws, RTok.lit '(', ws] ++ lits "parent" ++ [ws] ++ bangEq ++ [ws] ++
    lits "window" ++ [ws, RTok.lit ')']

/-- Head of `window\.top\.location\s*=\s*`. -/
def hdWinTopLoc : List RTok := lits "window.top.location" ++ [ws, RTok.lit '=', ws]

/-- Head of `parent\.location\s*=\s*`. -/
def hdParentLoc : List RTok := lits "parent.location" ++ [ws, RTok.lit '=', ws]

/-- Head of `top\.location\s*=\s*`. -/
def hdTopLoc : List RTok := lits "top.location" ++ [ws, RTok.lit '=', ws]

/-- Head of `if\s*\(\s*top\s*!==?\s*self\s*\)`. -/
def hdTopSelf : List RTok :=
  lits "if" ++ [ws, RTok.lit '(', ws] ++ lits "top" ++ [ws] ++ bangEq ++ [ws] ++
    lits "self" ++ [ws, RTok.lit ')']

/-- Head of `if\s*\(\s*window\.frameElement\s*\)`. -/
def hdFrameElement : List RTok :=
  lits "if" ++ [ws, RTok.lit '(', ws] ++ lits "window.frameElement" ++ [ws, RTok.lit ')']

/-- Head of `if\s*\(\s*window\.parent\s*!==?\s*window\s*\)`. -/
def hdWinParent : List RTok :=
  lits "if" ++ [ws, RTok.lit '(', ws] ++ lits "window.parent" ++ [ws] ++ bangEq ++ [ws] ++
    lits "window" ++ [ws, RTok.lit ')']

/-- Head of `top\.location\.replace\(`. -/
def hdTopReplace : List RTok := lits "top.location.replace("

/-- Head of `window\.top\.location\.replace\(`. -/
def hdWinTopReplace : List RTok := lits "window.top.location.replace("

/-- The detection signature catalogue of `detect_frame_busting_patterns`,
in source order; each entry pairs the Python pattern source text (used
as the reported identifier) with its token translation. -/
def detection_patterns : List (String × List RTok) :=
  [("if\\s*\\(\\s*window\\s*!==?\\s*window\\.top\\s*\\)", hdWinTop),
   ("if\\s*\\(\\s*self\\s*!==?\\s*top\\s*\\)", hdSelfTop),
   ("if\\s*\\(\\s*parent\\s*!==?\\s*window\\s*\\)", hdParentWin),
   ("window\\.top\\.location\\s*=\\s*window\\.location", hdWinTopLoc ++ lits "window.location"),
   ("parent\\.location\\s*=\\s*self\\.location", hdParentLoc ++ lits "self.location"),
   ("top\\.location\\s*=\\s*location", hdTopLoc ++ lits "location"),
   ("window\\.top\\.location\\.href\\s*=\\s*window\\.location\\.href",
     lits "window.top.location.href" ++ [ws, RTok.lit '=', ws] ++ lits "window.location.href"),
   ("if\\s*\\(\\s*top\\s*!==?\\s*self\\s*\\)", hdTopSelf),
   ("if\\s*\\(\\s*window\\.frameElement\\s*\\)", hdFrameElement),
   ("if\\s*\\(\\s*window\\.parent\\s*!==?\\s*window\\s*\\)", hdWinParent),
   ("top\\.location\\.replace\\(", hdTopReplace),
   ("window\\.top\\.location\\.replace\\(", hdWinTopReplace),
   ("break\\s*out\\s*of\\s*frame", lits "break" ++ [ws] ++ lits "out" ++ [ws] ++ lits "of" ++ [ws] ++ lits "frame"),
   ("framekiller", lits "framekiller"),
   ("framebreaker", lits "framebreaker")]

/-- `detect_frame_busting_patterns` from the source: case-insensitive
existence search of each detection signature, collecting the matching
pattern texts in catalogue order. -/
def detect_frame_busting_patterns (html_content : String) : List String :=
  (detection_patterns.filter (fun pr => searchToks pr.2 html_content.data)).map
    (fun pr => pr.1)

/-- One rewrite signature of `sanitize_javascript`: the Python pattern
source text, its token translation split as head plus `[^c]*c` tail
(with an optional trailing `;?`), and the replacement literal.  The full
token list of the regex is `rwToks`. -/
structure RWSig where
  src : String
  head : List RTok
  sent : Char
  tailOpt : Bool
  repl : String

/-- Token translation of a rewrite signature's full regex:
`head ++ [^sent]* ++ sent` plus `;?` when `tailOpt`. -/
def rwToks (sig : RWSig) : List RTok :=
  sig.head ++ [neqCls sig.sent, RTok.lit sig.sent] ++
    (if sig.tailOpt then [RTok.opt ';'] else [])

/-- The rewrite replacement literal shared by all eleven signatures. -/
def replTxt : String := "// Frame busting code removed"

/-- Rewrite signature 1: `if\s*\(\s*window\s*!==?\s*window\.top\s*\)[^}]*}`. -/
def sigWinTop : RWSig :=
  ⟨"if\\s*\\(\\s*window\\s*!==?\\s*window\\.top\\s*\\)[^\x7d]*\x7d", hdWinTop, '}', false, replTxt⟩

/-- Rewrite signature 2: `if\s*\(\s*self\s*!==?\s*top\s*\)[^}]*}`. -/
def sigSelfTop : RWSig :=
  ⟨"if\\s*\\(\\s*self\\s*!==?\\s*top\\s*\\)[^\x7d]*\x7d", hdSelfTop, '}', false, replTxt⟩

/-- Rewrite signature 3: `if\s*\(\s*parent\s*!==?\s*window\s*\)[^}]*}`. -/
def sigParentWin : RWSig :=
  ⟨"if\\s*\\(\\s*parent\\s*!==?\\s*window\\s*\\)[^\x7d]*\x7d", hdParentWin, '}', false, replTxt⟩

/-- Rewrite signature 4: `window\.top\.location\s*=\s*[^;]*;`. -/
def sigWinTopLoc : RWSig := ⟨"window\\.top\\.location\\s*=\\s*[^;]*;", hdWinTopLoc, ';', false, replTxt⟩

/-- Rewrite signature 5: `parent\.location\s*=\s*[^;]*;`. -/
def sigParentLoc : RWSig := ⟨"parent\\.location\\s*=\\s*[^;]*;", hdParentLoc, ';', false, replTxt⟩

/-- Rewrite signature 6: `top\.location\s*=\s*[^;]*;`. -/
def sigTopLoc : RWSig := ⟨"top\\.location\\s*=\\s*[^;]*;", hdTopLoc, ';', false, replTxt⟩

/-- Rewrite signature 7: `if\s*\(\s*top\s*!==?\s*self\s*\)[^}]*}`. -/
def sigTopSelf : RWSig :=
  ⟨"if\\s*\\(\\s*top\\s*!==?\\s*self\\s*\\)[^\x7d]*\x7d", hdTopSelf, '}', false, replTxt⟩

/-- Rewrite signature 8: `if\s*\(\s*window\.frameElement\s*\)[^}]*}`. -/
def sigFrameElement : RWSig :=
  ⟨"if\\s*\\(\\s*window\\.frameElement\\s*\\)[^\x7d]*\x7d", hdFrameElement, '}', false, replTxt⟩

/-- Rewrite signature 9: `if\s*\(\s*window\.parent\s*!==?\s*window\s*\)[^}]*}`. -/
def sigWinParent : RWSig :=
  ⟨"if\\s*\\(\\s*window\\.parent\\s*!==?\\s*window\\s*\\)[^\x7d]*\x7d", hdWinParent, '}', false, replTxt⟩

/-- Rewrite signature 10: `top\.location\.replace\([^)]*\);?`. -/
def sigTopReplace : RWSig := ⟨"top\\.location\\.replace\\([^)]*\\);?", hdTopReplace, ')', true, replTxt⟩

/-- Rewrite signature 11: `window\.top\.location\.replace\([^)]*\);?`. -/
def sigWinTopReplace : RWSig :=
  ⟨"window\\.top\\.location\\.replace\\([^)]*\\);?", hdWinTopReplace, ')', true, replTxt⟩

/-- The rewrite signature catalogue of `sanitize_javascript`, in source
order. -/
def frame_busting_patterns : List RWSig :=
  [sigWinTop, sigSelfTop, sigParentWin, sigWinTopLoc, sigParentLoc, sigTopLoc,
   sigTopSelf, sigFrameElement, sigWinParent, sigTopReplace, sigWinTopReplace]

/-- One signature step of the per-script loop: search, and on a hit
substitute every occurrence and append one modification entry. -/
def sanitizeStep (acc : List Char × List String) (sig : RWSig) : List Char × List String :=
  if searchToks (rwToks sig) acc.1 then
    (subAll (rwToks sig) sig.repl.data acc.1,
     acc.2 ++ ["Removed frame-busting pattern: " ++ sig.src])
  else acc

/-- The whole signature pipeline on one script body. -/
def sanitizeScriptChars (s : List Char) : List Char × List String :=
  frame_busting_patterns.foldl sanitizeStep (s, [])

/-- A meta element: its ordered attribute mapping (string keys/values). -/
structure MetaTag where
  attrs : List (String × String)
deriving DecidableEq

/-- `meta.get(k, '')`: first attribute with the given key, default empty. -/
def getAttr (m : MetaTag) (k : String) : String :=
  match m.attrs.find? (fun kv => kv.1 == k) with
  | some kv => kv.2
  | none => ""

/-- `meta[k] = v`: update the first binding of `k`, appending if absent. -/
def setPairs (k v : String) : List (String × String) → List (String × String)
  | [] => [(k, v)]
  | kv :: rest => if kv.1 == k then (k, v) :: rest else kv :: setPairs k v rest

/-- Attribute assignment on a meta element. -/
def setAttr (m : MetaTag) (k v : String) : MetaTag := ⟨setPairs k v m.attrs⟩

/-- A document node: an inline script body (`script.string`, which is
absent for external or multi-child scripts), a meta element, or any
other markup node held opaque. -/
inductive Node where
  | script (body : Option String)
  | meta (m : MetaTag)
  | other (raw : String)
deriving DecidableEq

/-- `sanitize_javascript` from the source: every script with inline text
runs the signature pipeline; modification entries accumulate across
scripts in document order; all other nodes are untouched. -/
def sanitize_javascript : List Node → List Node × List String
  | [] => ([], [])
  | Node.script (some s) :: rest =>
      let r := sanitizeScriptChars s.data
      let acc := sanitize_javascript rest
      (Node.script (some (String.mk r.1)) :: acc.1, r.2 ++ acc.2)
  | n :: rest =>
      let acc := sanitize_javascript rest
      (n :: acc.1, acc.2)

/-- Lower-case a string, modelling Python `str.lower` on the content. -/
def lowerStr (s : String) : String := String.mk (s.data.map Char.toLower)

/-- Substring containment on character lists (Python `in`). -/
def isSubList (pat : List Char) : List Char → Bool
  | [] => pat.isPrefixOf []
  | x :: s' => pat.isPrefixOf (x :: s') || isSubList pat s'

/-- Python `needle in hay` on strings. -/
def containsSub (needle hay : String) : Bool := isSubList needle.data hay.data

/-- `frame-ancestors[^;]*;?` from `clean_meta_tags`. -/
def faPattern : List RTok := lits "frame-ancestors" ++ [neqCls ';', RTok.opt ';']

/-- `;\s*;` from `clean_meta_tags`. -/
def semiPattern : List RTok := [RTok.lit ';', ws, RTok.lit ';']

/-- Python `str.strip('; ')`: drop `;` and space from both ends. -/
def stripSemiSpace (s : List Char) : List Char :=
  ((s.dropWhile fun c => c == ';' || c == ' ').reverse.dropWhile
      fun c => c == ';' || c == ' ').reverse

/-- The rewritten CSP content: strip every `frame-ancestors` directive
(up to and including its terminating `;`), collapse `;\s*;` to `;`, and
strip leading/trailing `;` and spaces — the three steps of the source. -/
def cspNewContent (content : String) : String :=
  String.mk (stripSemiSpace (subAll semiPattern [';'] (subAll faPattern [] content.data)))

/-- `clean_meta_tags` from the source: remove `x-frame-options` metas;
rewrite or remove `content-security-policy` metas whose content mentions
`frame-ancestors`; leave everything else untouched.  Returns the
surviving nodes and the modification entries in document order. -/
def clean_meta_tags : List Node → List Node × List String
  | [] => ([], [])
  | Node.meta m :: rest =>
      let acc := clean_meta_tags rest
      if lowerStr (getAttr m "http-equiv") == "x-frame-options" then
        (acc.1, "Removed X-Frame-Options meta tag" :: acc.2)
      else if lowerStr (getAttr m "http-equiv") == "content-security-policy" then
        if containsSub "frame-ancestors" (lowerStr (getAttr m "content")) then
          (let nc := cspNewContent (getAttr m "content")
           if nc.isEmpty then (acc.1, "Removed CSP meta tag" :: acc.2)
           else
             (Node.meta (setAttr m "content" nc) :: acc.1,
              "Modified CSP meta tag to remove frame-ancestors" :: acc.2))
        else (Node.meta m :: acc.1, acc.2)
      else (Node.meta m :: acc.1, acc.2)
  | n :: rest =>
      let acc := clean_meta_tags rest
      (n :: acc.1, acc.2)

/-- The apostrophe character, used to build content literals. -/
def sq : Char := Char.ofNat 39

/-- The literal token `'none'` checked by the assessor. -/
def noneTok : String := String.mk [sq, 'n', 'o', 'n', 'e', sq]

/-- The assessor's meta scan: an early `False` on an `x-frame-options`
meta or on a `content-security-policy` meta whose content mentions both
`frame-ancestors` and `'none'`; otherwise the final
`len(remaining_patterns) == 0` verdict. -/
def assessMetaLoop (remaining : List String) : List MetaTag → Bool
  | [] => remaining.length == 0
  | m :: rest =>
      if lowerStr (getAttr m "http-equiv") == "x-frame-options" then false
      else if lowerStr (getAttr m "http-equiv") == "content-security-policy" &&
          containsSub "frame-ancestors" (lowerStr (getAttr m "content")) &&
          containsSub noneTok (lowerStr (getAttr m "content")) then false
      else assessMetaLoop remaining rest

/-- `assess_iframe_compatibility` from the source.  The source re-parses
`html_content` with the external parser collaborator and scans its meta
elements; `metas` is that parsed meta list, passed explicitly. -/
def assess_iframe_compatibility (html_content : String) (metas : List MetaTag) : Bool :=
  assessMetaLoop (detect_frame_busting_patterns html_content) metas

/-- The meta elements of a parsed document (`soup.find_all('meta')`). -/
def metasOf : List Node → List MetaTag
  | [] => []
  | Node.meta m :: rest => m :: metasOf rest
  | _ :: rest => metasOf rest

/-- The dataset record pushed by `main`. -/
structure ResultRecord where
  url : String
  error : Option String
  html_content : Option String
  iframe_compatible : Bool
  original_blocked : Bool
  modifications_made : List String
  original_frame_busting_patterns : List String
deriving DecidableEq

/-- The orchestrator body of `main` after input resolution: the fetch
outcome is the external collaborator's result (`Except.error` models any
raised exception, carrying `str(e)`), and `parse`/`serialize` are the
markup collaborator. -/
def mainRun (url : String) (fetched : Except String String)
    (parse : String → List Node) (serialize : List Node → String) : ResultRecord :=
  match fetched with
  | Except.ok original_html =>
      let original_blocked :=
        !(assess_iframe_compatibility original_html (metasOf (parse original_html)))
      let soup := parse original_html
      let js := sanitize_javascript soup
      let mt := clean_meta_tags js.1
      let processed := serialize mt.1
      let compat := assess_iframe_compatibility processed (metasOf (parse processed))
      ⟨url, none, some processed, compat, original_blocked, js.2 ++ mt.2,
        detect_frame_busting_patterns original_html⟩
  | Except.error e => ⟨url, some e, none, false, true, [], []⟩

/-- Declarative matching semantics: `Eats ts m` means the token list
`ts` can consume exactly the character list `m`. -/
inductive Eats : List RTok → List Char → Prop
  | nil : Eats [] []
  | lit {c : Char} {ts : List RTok} {x : Char} {s : List Char} :
      ciEq x c = true → Eats ts s → Eats (RTok.lit c :: ts) (x :: s)
  | optTake {c : Char} {ts : List RTok} {x : Char} {s : List Char} :
      ciEq x c = true → Eats ts s → Eats (RTok.opt c :: ts) (x :: s)
  | optSkip {c : Char} {ts : List RTok} {s : List Char} :
      Eats ts s → Eats (RTok.opt c :: ts) s
  | starStop {p : Char → Bool} {ts : List RTok} {s : List Char} :
      Eats ts s → Eats (RTok.star p :: ts) s
  | starStep {p : Char → Bool} {ts : List RTok} {x : Char} {s : List Char} :
      p x = true → Eats (RTok.star p :: ts) s → Eats (RTok.star p :: ts) (x :: s)

/-- One-character transition of the token machine: from state `q`,
consuming `x` leads to state `q'`. -/
inductive Step : List RTok → Char → List RTok → Prop
  | lit {c : Char} {ts : List RTok} {x : Char} :
      ciEq x c = true → Step (RTok.lit c :: ts) x ts
  | optTake {c : Char} {ts : List RTok} {x : Char} :
      ciEq x c = true → Step (RTok.opt c :: ts) x ts
  | optSkip {c : Char} {ts : List RTok} {x : Char} {q : List RTok} :
      Step ts x q → Step (RTok.opt c :: ts) x q
  | starTake {p : Char → Bool} {ts : List RTok} {x : Char} :
      p x = true → Step (RTok.star p :: ts) x (RTok.star p :: ts)
  | starSkip {p : Char → Bool} {ts : List RTok} {x : Char} {q : List RTok} :
      Step ts x q → Step (RTok.star p :: ts) x q

/-- An occurrence of head `H` somewhere in `s` with a character
case-insensitively equal to `c` somewhere after it. -/
def OccursHTC (H : List RTok) (c : Char) (s : List Char) : Prop :=
  ∃ pre m suf, s = pre ++ m ++ suf ∧ Eats H m ∧ ∃ y ∈ suf, ciEq y c = true

/-- The shape of a global-substitution output: `out` copies characters
of `t`, except that spans eaten by the pattern are replaced by `R`. -/
inductive SubOut (p : List RTok) (R : List Char) : List Char → List Char → Prop
  | nil : SubOut p R [] []
  | copy {x : Char} {t out : List Char} :
      SubOut p R t out → SubOut p R (x :: t) (x :: out)
  | repl {mid t out : List Char} :
      Eats p mid → SubOut p R t out → SubOut p R (mid ++ t) (R ++ out)

/-- One signature stage on a script text: search, then substitute on a
hit (the text component of `sanitizeStep`). -/
def stageApply (t : List Char) (sig : RWSig) : List Char :=
  if searchToks (rwToks sig) t then subAll (rwToks sig) sig.repl.data t else t

/-- All signature stages on one script text, in catalogue order (the
text component of the per-script pipeline). -/
def applyAllSigs (t : List Char) : List Char :=
  frame_busting_patterns.foldl stageApply t

/-- Token cannot consume a slash (the replacement text starts `//`). -/
def tokNoSlash : RTok → Bool
  | RTok.lit c => !ciEq '/' c
  | RTok.opt c => !ciEq '/' c
  | RTok.star p => !p '/'

/-- No nonempty suffix of the list starts with `a` (if one character
long) or with the two characters `a`, `b` (case-insensitively): a match
whose first two tokens are the literals `a`, `b` can neither start
inside the list and cross its right end nor lie inside it. -/
def sufOKr (a b : Char) : List Char → Bool
  | [] => true
  | [x] => !ciEq x a
  | x :: y :: rest => !(ciEq x a && ciEq y b) && sufOKr a b (y :: rest)

/-- Side conditions letting a rewrite signature's replacement text never
create or complete a new occurrence of the signature's head, nor supply
its sentinel character: the head starts with two literals, no head token
consumes `/`, the replacement starts with `/`, contains no sentinel, and
no suffix of it can begin a head match. -/
def sigSideOK (sig : RWSig) : Bool :=
  match sig.head with
  | RTok.lit a :: RTok.lit b :: _ =>
      sig.head.all tokNoSlash &&
      sig.repl.data.all (fun ch => !ciEq ch sig.sent) &&
      sufOKr a b sig.repl.data &&
      (match sig.repl.data with
       | c :: _ => c == '/'
       | [] => false)
  | _ => false

/-- Per-node action of the meta-tag normalizer, used to state its frame
condition: `none` means the element is removed, `some` gives the
(possibly rewritten) surviving element. -/
def metaNormNode : Node → Option Node
  | Node.meta m =>
      if lowerStr (getAttr m "http-equiv") == "x-frame-options" then none
      else if lowerStr (getAttr m "http-equiv") == "content-security-policy" then
        if containsSub "frame-ancestors" (lowerStr (getAttr m "content")) then
          if (cspNewContent (getAttr m "content")).isEmpty then none
          else some (Node.meta (setAttr m "content" (cspNewContent (getAttr m "content"))))
        else some (Node.meta m)
      else some (Node.meta m)
  | n => some n

/-- Scenario A script body:
`if (window !== window.top) { top.location = location; }`. -/
def bodyScenarioA : String :=
  "if (window !== window.top) \x7b top.location = location; \x7d"

/-- Scenario C CSP content: `default-src 'self'; frame-ancestors 'none'`. -/
def cspScenarioCContent : String :=
  String.mk ("default-src ".data ++ sq :: "self".data ++ sq ::
    "; frame-ancestors ".data ++ sq :: "none".data ++ [sq])

/-- Scenario C expected rewritten content: `default-src 'self'`. -/
def cspScenarioCResult : String :=
  String.mk ("default-src ".data ++ sq :: "self".data ++ [sq])

/-- A CSP content on which removing the `frame-ancestors` directive
re-concatenates the surrounding text into the substring
`frame-ancestors` again. -/
def cexRecreationContent : String := "frame-anceframe-ancestors;stors"

/-- The meta element with that content. -/
def cexRecreationMeta : MetaTag :=
  ⟨[("http-equiv", "content-security-policy"), ("content", cexRecreationContent)]⟩

/-- A location reassignment with a numeric right-hand side: matched by a
rewrite signature but by no detection signature. -/
def cexC5Text : String := "top.location = 5;"

/-- Scenario B meta element: `<meta http-equiv="X-Frame-Options" content="DENY">`. -/
def xfoDenyMeta : MetaTag := ⟨[("http-equiv", "X-Frame-Options"), ("content", "DENY")]⟩

/-- Scenario C meta element, carrying the scenario C content. -/
def scenarioCMeta : MetaTag :=
  ⟨[("http-equiv", "Content-Security-Policy"), ("content", cspScenarioCContent)]⟩

/-! ### Matcher theory: the fuelled matcher is fuel-independent, and its
clean unfolding equations. -/

theorem matchToksF_irrel : ∀ (f g : Nat) (ts : List RTok) (s : List Char),
    ts.length + s.length < f → ts.length + s.length < g →
    matchToksF f ts s = matchToksF g ts s := by
  intro f
  induction f with
  | zero => intro g ts s hf _; exact absurd hf (Nat.not_lt_zero _)
  | succ f ih =>
    intro g ts s hf hg
    cases g with
    | zero => exact absurd hg (Nat.not_lt_zero _)
    | succ g =>
      cases ts with
      | nil => rfl
      | cons t ts =>
        cases t with
        | lit c =>
          cases s with
          | nil => rfl
          | cons x s =>
            simp only [matchToksF]
            cases hx : ciEq x c
            · rfl
            · exact ih g ts s (by simp only [List.length_cons] at hf; omega)
                (by simp only [List.length_cons] at hg; omega)
        | opt c =>
          cases s with
          | nil =>
            simp only [matchToksF]
            exact ih g ts [] (by simp only [List.length_cons] at hf; omega)
              (by simp only [List.length_cons] at hg; omega)
          | cons x s =>
            simp only [matchToksF]
            cases hx : ciEq x c
            · exact ih g ts (x :: s) (by simp only [List.length_cons] at hf ⊢; omega)
                (by simp only [List.length_cons] at hg ⊢; omega)
            · rw [ih g ts s (by simp only [List.length_cons] at hf; omega)
                  (by simp only [List.length_cons] at hg; omega),
                ih g ts (x :: s) (by simp only [List.length_cons] at hf ⊢; omega)
                  (by simp only [List.length_cons] at hg ⊢; omega)]
        | star p =>
          cases s with
          | nil =>
            simp only [matchToksF]
            exact ih g ts [] (by simp only [List.length_cons] at hf; omega)
              (by simp only [List.length_cons] at hg; omega)
          | cons x s =>
            simp only [matchToksF]
            cases hx : p x
            · exact ih g ts (x :: s) (by simp only [List.length_cons] at hf ⊢; omega)
                (by simp only [List.length_cons] at hg ⊢; omega)
            · rw [ih g (RTok.star p :: ts) s (by simp only [List.length_cons] at hf ⊢; omega)
                  (by simp only [List.length_cons] at hg ⊢; omega),
                ih g ts (x :: s) (by simp only [List.length_cons] at hf ⊢; omega)
                  (by simp only [List.length_cons] at hg ⊢; omega)]

theorem matchToksF_eq_matchToks (f : Nat) (ts : List RTok) (s : List Char)
    (h : ts.length + s.length < f) : matchToksF f ts s = matchToks ts s :=
  matchToksF_irrel f (ts.length + s.length + 1) ts s h (Nat.lt_succ_self _)

theorem matchToks_nil_pat (s : List Char) : matchToks [] s = some s := rfl

theorem matchToks_lit_nil (c : Char) (ts : List RTok) :
    matchToks (RTok.lit c :: ts) [] = none := rfl

theorem matchToks_lit_cons (c : Char) (ts : List RTok) (x : Char) (s : List Char) :
    matchToks (RTok.lit c :: ts) (x :: s) =
      if ciEq x c then matchToks ts s else none := by
  simp only [matchToks, matchToksF]
  cases hx : ciEq x c
  · rfl
  · simp only [if_true]
    exact matchToksF_irrel _ _ ts s (by simp only [List.length_cons]; omega)
      (Nat.lt_succ_self _)

theorem matchToks_opt_nil (c : Char) (ts : List RTok) :
    matchToks (RTok.opt c :: ts) [] = matchToks ts [] := by
  simp only [matchToks, matchToksF]
  exact matchToksF_irrel _ _ ts [] (by simp only [List.length_cons]; omega)
    (Nat.lt_succ_self _)

theorem matchToks_opt_cons (c : Char) (ts : List RTok) (x : Char) (s : List Char) :
    matchToks (RTok.opt c :: ts) (x :: s) =
      if ciEq x c then ofirst (matchToks ts s) (matchToks ts (x :: s))
      else matchToks ts (x :: s) := by
  have key : matchToks (RTok.opt c :: ts) (x :: s) =
      if ciEq x c then
        ofirst (matchToksF ((RTok.opt c :: ts).length + (x :: s).length) ts s)
          (matchToksF ((RTok.opt c :: ts).length + (x :: s).length) ts (x :: s))
      else matchToksF ((RTok.opt c :: ts).length + (x :: s).length) ts (x :: s) := rfl
  rw [key, matchToksF_eq_matchToks _ ts s (by simp only [List.length_cons]; omega),
    matchToksF_eq_matchToks _ ts (x :: s) (by simp only [List.length_cons]; omega)]

theorem matchToks_star_nil (p : Char → Bool) (ts : List RTok) :
    matchToks (RTok.star p :: ts) [] = matchToks ts [] := by
  simp only [matchToks, matchToksF]
  exact matchToksF_irrel _ _ ts [] (by simp only [List.length_cons]; omega)
    (Nat.lt_succ_self _)

theorem matchToks_star_cons (p : Char → Bool) (ts : List RTok) (x : Char) (s : List Char) :
    matchToks (RTok.star p :: ts) (x :: s) =
      if p x then ofirst (matchToks (RTok.star p :: ts) s) (matchToks ts (x :: s))
      else matchToks ts (x :: s) := by
  have key : matchToks (RTok.star p :: ts) (x :: s) =
      if p x then
        ofirst (matchToksF ((RTok.star p :: ts).length + (x :: s).length) (RTok.star p :: ts) s)
          (matchToksF ((RTok.star p :: ts).length + (x :: s).length) ts (x :: s))
      else matchToksF ((RTok.star p :: ts).length + (x :: s).length) ts (x :: s) := rfl
  rw [key,
    matchToksF_eq_matchToks _ (RTok.star p :: ts) s (by simp only [List.length_cons]; omega),
    matchToksF_eq_matchToks _ ts (x :: s) (by simp only [List.length_cons]; omega)]

theorem ofirst_some_left {a b : Option (List Char)} (h : a.isSome = true) :
    ofirst a b = a := by
  cases a with
  | none => exact absurd h (by simp)
  | some v => rfl

theorem ofirst_none_left {b : Option (List Char)} : ofirst none b = b := rfl

theorem ofirst_isSome_right {a b : Option (List Char)} (h : b.isSome = true) :
    (ofirst a b).isSome = true := by
  cases a with
  | none => exact h
  | some v => rfl

theorem ofirst_isSome_left {a b : Option (List Char)} (h : a.isSome = true) :
    (ofirst a b).isSome = true := by rw [ofirst_some_left h]; exact h

theorem matchToksF_some_le : ∀ (f : Nat) (ts : List RTok) (s r : List Char),
    matchToksF f ts s = some r → r.length ≤ s.length := by
  intro f
  induction f with
  | zero => intro ts s r h; exact absurd h (by simp [matchToksF])
  | succ f ih =>
    intro ts s r h
    cases ts with
    | nil =>
      simp only [matchToksF, Option.some.injEq] at h
      exact h ▸ Nat.le_refl _
    | cons t ts =>
      cases t with
      | lit c =>
        cases s with
        | nil => exact absurd h (by simp [matchToksF])
        | cons x s =>
          simp only [matchToksF] at h
          cases hx : ciEq x c with
          | false => rw [hx] at h; exact absurd h (by simp)
          | true =>
            rw [hx] at h
            simp only [if_true] at h
            exact Nat.le_trans (ih ts s r h) (Nat.le_succ _)
      | opt c =>
        cases s with
        | nil =>
          simp only [matchToksF] at h
          exact ih ts [] r h
        | cons x s =>
          simp only [matchToksF] at h
          cases hx : ciEq x c with
          | false =>
            rw [hx] at h
            simp only [Bool.false_eq_true, if_false] at h
            exact ih ts (x :: s) r h
          | true =>
            rw [hx] at h
            simp only [if_true] at h
            cases hA : matchToksF f ts s with
            | some v =>
              rw [ofirst_some_left (by simp [hA])] at h
              rw [hA] at h
              cases h
              exact Nat.le_trans (ih ts s r hA) (Nat.le_succ _)
            | none =>
              rw [hA, ofirst_none_left] at h
              exact ih ts (x :: s) r h
      | star p =>
        cases s with
        | nil =>
          simp only [matchToksF] at h
          exact ih ts [] r h
        | cons x s =>
          simp only [matchToksF] at h
          cases hx : p x with
          | false =>
            rw [hx] at h
            simp only [Bool.false_eq_true, if_false] at h
            exact ih ts (x :: s) r h
          | true =>
            rw [hx] at h
            simp only [if_true] at h
            cases hA : matchToksF f (RTok.star p :: ts) s with
            | some v =>
              rw [ofirst_some_left (by simp [hA])] at h
              rw [hA] at h
              cases h
              exact Nat.le_trans (ih (RTok.star p :: ts) s r hA) (Nat.le_succ _)
            | none =>
              rw [hA, ofirst_none_left] at h
              exact ih ts (x :: s) r h

theorem matchToks_some_le {ts : List RTok} {s r : List Char}
    (h : matchToks ts s = some r) : r.length ≤ s.length :=
  matchToksF_some_le _ ts s r h

/-! ### Soundness and completeness of the matcher against `Eats`. -/

theorem matchToks_sound : ∀ (n : Nat) (ts : List RTok) (s : List Char),
    ts.length + s.length ≤ n → ∀ r, matchToks ts s = some r →
    ∃ m, s = m ++ r ∧ Eats ts m := by
  intro n
  induction n with
  | zero =>
    intro ts s hn r h
    have hts : ts = [] := List.length_eq_zero.mp (by omega)
    have hs : s = [] := List.length_eq_zero.mp (by omega)
    subst hts; subst hs
    rw [matchToks_nil_pat] at h
    cases h
    exact ⟨[], rfl, Eats.nil⟩
  | succ n ih =>
    intro ts s hn r h
    cases ts with
    | nil =>
      rw [matchToks_nil_pat] at h
      cases h
      exact ⟨[], rfl, Eats.nil⟩
    | cons t ts =>
      cases t with
      | lit c =>
        cases s with
        | nil => exact absurd h (by rw [matchToks_lit_nil]; simp)
        | cons x s =>
          rw [matchToks_lit_cons] at h
          cases hx : ciEq x c with
          | false => rw [hx] at h; exact absurd h (by simp)
          | true =>
            simp only [hx, if_true] at h
            obtain ⟨m, hm, he⟩ := ih ts s (by simp only [List.length_cons] at hn; omega) r h
            exact ⟨x :: m, by rw [hm]; rfl, Eats.lit hx he⟩
      | opt c =>
        cases s with
        | nil =>
          rw [matchToks_opt_nil] at h
          obtain ⟨m, hm, he⟩ := ih ts [] (by simp only [List.length_cons] at hn; omega) r h
          exact ⟨m, hm, Eats.optSkip he⟩
        | cons x s =>
          rw [matchToks_opt_cons] at h
          cases hx : ciEq x c with
          | false =>
            rw [hx] at h
            simp only [Bool.false_eq_true, if_false] at h
            obtain ⟨m, hm, he⟩ :=
              ih ts (x :: s) (by simp only [List.length_cons] at hn ⊢; omega) r h
            exact ⟨m, hm, Eats.optSkip he⟩
          | true =>
            simp only [hx, if_true] at h
            cases hA : matchToks ts s with
            | some v =>
              rw [ofirst_some_left (by simp [hA]), hA] at h
              cases h
              obtain ⟨m, hm, he⟩ := ih ts s (by simp only [List.length_cons] at hn; omega) r hA
              exact ⟨x :: m, by rw [hm]; rfl, Eats.optTake hx he⟩
            | none =>
              rw [hA, ofirst_none_left] at h
              obtain ⟨m, hm, he⟩ :=
                ih ts (x :: s) (by simp only [List.length_cons] at hn ⊢; omega) r h
              exact ⟨m, hm, Eats.optSkip he⟩
      | star p =>
        cases s with
        | nil =>
          rw [matchToks_star_nil] at h
          obtain ⟨m, hm, he⟩ := ih ts [] (by simp only [List.length_cons] at hn; omega) r h
          exact ⟨m, hm, Eats.starStop he⟩
        | cons x s =>
          rw [matchToks_star_cons] at h
          cases hx : p x with
          | false =>
            rw [hx] at h
            simp only [Bool.false_eq_true, if_false] at h
            obtain ⟨m, hm, he⟩ :=
              ih ts (x :: s) (by simp only [List.length_cons] at hn ⊢; omega) r h
            exact ⟨m, hm, Eats.starStop he⟩
          | true =>
            simp only [hx, if_true] at h
            cases hA : matchToks (RTok.star p :: ts) s with
            | some v =>
              rw [ofirst_some_left (by simp [hA]), hA] at h
              cases h
              obtain ⟨m, hm, he⟩ :=
                ih (RTok.star p :: ts) s (by simp only [List.length_cons] at hn ⊢; omega) r hA
              exact ⟨x :: m, by rw [hm]; rfl, Eats.starStep hx he⟩
            | none =>
              rw [hA, ofirst_none_left] at h
              obtain ⟨m, hm, he⟩ :=
                ih ts (x :: s) (by simp only [List.length_cons] at hn ⊢; omega) r h
              exact ⟨m, hm, Eats.starStop he⟩

theorem matchToks_eats {ts : List RTok} {s r : List Char} (h : matchToks ts s = some r) :
    ∃ m, s = m ++ r ∧ Eats ts m :=
  matchToks_sound (ts.length + s.length) ts s (Nat.le_refl _) r h

theorem eats_complete {ts : List RTok} {m : List Char} (h : Eats ts m) :
    ∀ r, (matchToks ts (m ++ r)).isSome = true := by
  induction h with
  | nil => intro r; rw [List.nil_append, matchToks_nil_pat]; rfl
  | lit hx _ ih =>
    intro r
    rw [List.cons_append, matchToks_lit_cons]
    simp only [hx, if_true]
    exact ih r
  | optTake hx _ ih =>
    intro r
    rw [List.cons_append, matchToks_opt_cons]
    simp only [hx, if_true]
    exact ofirst_isSome_left (ih r)
  | optSkip he ih =>
    rename_i c ts0 s0
    intro r
    cases hmr : s0 ++ r with
    | nil =>
      rw [matchToks_opt_nil]
      have hh := ih r
      rw [hmr] at hh
      exact hh
    | cons x u =>
      rw [matchToks_opt_cons]
      have hh := ih r
      rw [hmr] at hh
      cases hx : ciEq x c with
      | false => simp only [hx, Bool.false_eq_true, if_false]; exact hh
      | true => simp only [hx, if_true]; exact ofirst_isSome_right hh
  | starStop he ih =>
    rename_i p ts0 s0
    intro r
    cases hmr : s0 ++ r with
    | nil =>
      rw [matchToks_star_nil]
      have hh := ih r
      rw [hmr] at hh
      exact hh
    | cons x u =>
      rw [matchToks_star_cons]
      have hh := ih r
      rw [hmr] at hh
      cases hx : p x with
      | false => simp only [hx, Bool.false_eq_true, if_false]; exact hh
      | true => simp only [hx, if_true]; exact ofirst_isSome_right hh
  | starStep hx _ ih =>
    intro r
    rw [List.cons_append, matchToks_star_cons]
    simp only [hx, if_true]
    exact ofirst_isSome_left (ih r)

/-! ### Search as existence of an occurrence, and `re.sub` equations. -/

theorem searchToks_of_occurs {ts : List RTok} :
    ∀ {s : List Char}, (∃ pre m suf, s = pre ++ m ++ suf ∧ Eats ts m) →
    searchToks ts s = true := by
  intro s h
  obtain ⟨pre, m, suf, heq, he⟩ := h
  induction pre generalizing s with
  | nil =>
    rw [List.nil_append] at heq
    subst heq
    have hsome := eats_complete he suf
    cases hm : m ++ suf with
    | nil =>
      rw [hm] at hsome
      simp only [searchToks]
      exact hsome
    | cons x u =>
      rw [hm] at hsome
      simp only [searchToks, hsome, Bool.true_or]
  | cons z pre ih =>
    subst heq
    show ((matchToks ts (z :: (pre ++ m ++ suf))).isSome || searchToks ts (pre ++ m ++ suf)) = true
    rw [ih rfl, Bool.or_true]

theorem occurs_of_searchToks {ts : List RTok} :
    ∀ (s : List Char), searchToks ts s = true →
    ∃ pre m suf, s = pre ++ m ++ suf ∧ Eats ts m := by
  intro s
  induction s with
  | nil =>
    intro h
    simp only [searchToks] at h
    cases hm : matchToks ts [] with
    | none => rw [hm] at h; exact absurd h (by simp)
    | some r =>
      obtain ⟨m, hm2, he⟩ := matchToks_eats hm
      exact ⟨[], m, r, by simpa using hm2, he⟩
  | cons x s ih =>
    intro h
    simp only [searchToks, Bool.or_eq_true] at h
    cases h with
    | inl h =>
      cases hm : matchToks ts (x :: s) with
      | none => rw [hm] at h; exact absurd h (by simp)
      | some r =>
        obtain ⟨m, hm2, he⟩ := matchToks_eats hm
        exact ⟨[], m, r, by simpa using hm2, he⟩
    | inr h =>
      obtain ⟨pre, m, suf, heq, he⟩ := ih h
      exact ⟨x :: pre, m, suf, by rw [heq]; rfl, he⟩

theorem subAllF_irrel (ts : List RTok) (repl : List Char) :
    ∀ (f g : Nat) (s : List Char), s.length < f → s.length < g →
    subAllF ts repl f s = subAllF ts repl g s := by
  intro f
  induction f with
  | zero => intro g s hf _; exact absurd hf (Nat.not_lt_zero _)
  | succ f ih =>
    intro g s hf hg
    cases g with
    | zero => exact absurd hg (Nat.not_lt_zero _)
    | succ g =>
      simp only [subAllF]
      cases hm : matchToks ts s with
      | some r =>
        have hr := matchToks_some_le hm
        by_cases hlt : r.length < s.length
        · simp only [hlt, if_true]
          rw [ih g r (by omega) (by omega)]
        · simp only [hlt, if_false]
          cases s with
          | nil => rfl
          | cons x s' =>
            simp only [List.length_cons] at hf hg
            show repl ++ (x :: subAllF ts repl f s') = repl ++ (x :: subAllF ts repl g s')
            rw [ih g s' (by omega) (by omega)]
      | none =>
        cases s with
        | nil => rfl
        | cons x s' =>
          simp only [List.length_cons] at hf hg
          show x :: subAllF ts repl f s' = x :: subAllF ts repl g s'
          rw [ih g s' (by omega) (by omega)]

theorem subAll_unfold (ts : List RTok) (repl s : List Char) :
    subAll ts repl s =
      match matchToks ts s with
      | some r =>
          if r.length < s.length then repl ++ subAllF ts repl s.length r
          else
            repl ++
              (match s with
               | [] => []
               | x :: s' => x :: subAllF ts repl s.length s')
      | none =>
          match s with
          | [] => []
          | x :: s' => x :: subAllF ts repl s.length s' := rfl

theorem subAll_match {ts : List RTok} {repl s r : List Char}
    (hm : matchToks ts s = some r) (hr : r.length < s.length) :
    subAll ts repl s = repl ++ subAll ts repl r := by
  rw [subAll_unfold, hm]
  simp only [hr, if_true]
  rw [subAllF_irrel ts repl s.length (r.length + 1) r hr (Nat.lt_succ_self _)]
  rfl

theorem subAll_nomatch_nil {ts : List RTok} {repl : List Char}
    (hm : matchToks ts [] = none) : subAll ts repl [] = [] := by
  rw [subAll_unfold, hm]

theorem subAll_nomatch_cons {ts : List RTok} {repl : List Char} {x : Char} {s : List Char}
    (hm : matchToks ts (x :: s) = none) :
    subAll ts repl (x :: s) = x :: subAll ts repl s := by
  rw [subAll_unfold, hm]
  show x :: subAllF ts repl (x :: s).length s = x :: subAll ts repl s
  rw [subAllF_irrel ts repl (x :: s).length (s.length + 1) s
      (by simp only [List.length_cons]; omega) (Nat.lt_succ_self _)]
  rfl

/-! ### Structural lemmas about `Eats` and `Step`. -/

theorem eats_append_intro : ∀ {a : List RTok} {m1 : List Char}, Eats a m1 →
    ∀ {b : List RTok} {m2 : List Char}, Eats b m2 → Eats (a ++ b) (m1 ++ m2) := by
  intro a m1 h
  induction h with
  | nil => intro b m2 h2; exact h2
  | lit hx _ ih => intro b m2 h2; exact Eats.lit hx (ih h2)
  | optTake hx _ ih => intro b m2 h2; exact Eats.optTake hx (ih h2)
  | optSkip _ ih => intro b m2 h2; exact Eats.optSkip (ih h2)
  | starStop _ ih => intro b m2 h2; exact Eats.starStop (ih h2)
  | starStep hx _ ih => intro b m2 h2; exact Eats.starStep hx (ih h2)

theorem eats_append_split : ∀ {ts : List RTok} {m : List Char}, Eats ts m →
    ∀ (a b : List RTok), ts = a ++ b →
    ∃ m1 m2, m = m1 ++ m2 ∧ Eats a m1 ∧ Eats b m2 := by
  intro ts m h
  induction h with
  | nil =>
    intro a b hab
    obtain ⟨ha, hb⟩ := List.append_eq_nil.mp hab.symm
    subst ha; subst hb
    exact ⟨[], [], rfl, Eats.nil, Eats.nil⟩
  | lit hx he ih =>
    intro a b hab
    cases a with
    | nil =>
      rw [List.nil_append] at hab
      exact ⟨[], _, rfl, Eats.nil, hab ▸ Eats.lit hx he⟩
    | cons t a' =>
      rw [List.cons_append] at hab
      injection hab with h1 h2
      obtain ⟨m1, m2, hm, ha, hb⟩ := ih a' b h2
      exact ⟨_ :: m1, m2, by rw [hm]; rfl, h1 ▸ Eats.lit hx ha, hb⟩
  | optTake hx he ih =>
    intro a b hab
    cases a with
    | nil =>
      rw [List.nil_append] at hab
      exact ⟨[], _, rfl, Eats.nil, hab ▸ Eats.optTake hx he⟩
    | cons t a' =>
      rw [List.cons_append] at hab
      injection hab with h1 h2
      obtain ⟨m1, m2, hm, ha, hb⟩ := ih a' b h2
      exact ⟨_ :: m1, m2, by rw [hm]; rfl, h1 ▸ Eats.optTake hx ha, hb⟩
  | optSkip he ih =>
    intro a b hab
    cases a with
    | nil =>
      rw [List.nil_append] at hab
      exact ⟨[], _, rfl, Eats.nil, hab ▸ Eats.optSkip he⟩
    | cons t a' =>
      rw [List.cons_append] at hab
      injection hab with h1 h2
      obtain ⟨m1, m2, hm, ha, hb⟩ := ih a' b h2
      exact ⟨m1, m2, hm, h1 ▸ Eats.optSkip ha, hb⟩
  | starStop he ih =>
    intro a b hab
    cases a with
    | nil =>
      rw [List.nil_append] at hab
      exact ⟨[], _, rfl, Eats.nil, hab ▸ Eats.starStop he⟩
    | cons t a' =>
      rw [List.cons_append] at hab
      injection hab with h1 h2
      obtain ⟨m1, m2, hm, ha, hb⟩ := ih a' b h2
      exact ⟨m1, m2, hm, h1 ▸ Eats.starStop ha, hb⟩
  | starStep hx he ih =>
    intro a b hab
    cases a with
    | nil =>
      rw [List.nil_append] at hab
      exact ⟨[], _, rfl, Eats.nil, hab ▸ Eats.starStep hx he⟩
    | cons t a' =>
      obtain ⟨m1, m2, hm, ha, hb⟩ := ih (t :: a') b hab
      rw [List.cons_append] at hab
      injection hab with h1 _
      subst h1
      exact ⟨_ :: m1, m2, by rw [hm]; rfl, Eats.starStep hx ha, hb⟩

theorem eats_lit_inv {c : Char} {ts : List RTok} {m : List Char}
    (h : Eats (RTok.lit c :: ts) m) :
    ∃ x m', m = x :: m' ∧ ciEq x c = true ∧ Eats ts m' := by
  cases h with
  | lit hx he => exact ⟨_, _, rfl, hx, he⟩

theorem eats_lit_ne_nil {c : Char} {ts : List RTok}
    (h : Eats (RTok.lit c :: ts) []) : False := by
  cases h

theorem eats_cons_inv : ∀ (q : List RTok) (x : Char) (m : List Char),
    Eats q (x :: m) → ∃ q', Step q x q' ∧ Eats q' m := by
  intro q
  induction q with
  | nil => intro x m h; cases h
  | cons t ts ih =>
    intro x m h
    cases t with
    | lit c =>
      cases h with
      | lit hx he => exact ⟨ts, Step.lit hx, he⟩
    | opt c =>
      cases h with
      | optTake hx he => exact ⟨ts, Step.optTake hx, he⟩
      | optSkip he =>
        obtain ⟨q', hst, he'⟩ := ih x m he
        exact ⟨q', Step.optSkip hst, he'⟩
    | star p =>
      cases h with
      | starStop he =>
        obtain ⟨q', hst, he'⟩ := ih x m he
        exact ⟨q', Step.starSkip hst, he'⟩
      | starStep px he => exact ⟨RTok.star p :: ts, Step.starTake px, he⟩

theorem step_eats {q : List RTok} {x : Char} {q' : List RTok}
    (hst : Step q x q') {m : List Char} (he : Eats q' m) : Eats q (x :: m) := by
  induction hst with
  | lit hx => exact Eats.lit hx he
  | optTake hx => exact Eats.optTake hx he
  | optSkip _ ih => exact Eats.optSkip (ih he)
  | starTake px => exact Eats.starStep px he
  | starSkip _ ih => exact Eats.starStop (ih he)

theorem step_all {q : List RTok} {x : Char} {q' : List RTok} (hst : Step q x q')
    (P : RTok → Bool) (hall : q.all P = true) : q'.all P = true := by
  induction hst with
  | lit _ =>
    simp only [List.all_cons, Bool.and_eq_true] at hall
    exact hall.2
  | optTake _ =>
    simp only [List.all_cons, Bool.and_eq_true] at hall
    exact hall.2
  | optSkip _ ih =>
    simp only [List.all_cons, Bool.and_eq_true] at hall
    exact ih hall.2
  | starTake _ => exact hall
  | starSkip _ ih =>
    simp only [List.all_cons, Bool.and_eq_true] at hall
    exact ih hall.2

theorem step_slash {q q' : List RTok} {x : Char} (hst : Step q x q')
    (hall : q.all tokNoSlash = true) (hx7 : x = '/') : False := by
  induction hst with
  | lit hx =>
    subst hx7
    simp only [List.all_cons, Bool.and_eq_true, tokNoSlash] at hall
    rw [hx] at hall
    exact absurd hall.1 (by simp)
  | optTake hx =>
    subst hx7
    simp only [List.all_cons, Bool.and_eq_true, tokNoSlash] at hall
    rw [hx] at hall
    exact absurd hall.1 (by simp)
  | optSkip _ ih =>
    simp only [List.all_cons, Bool.and_eq_true] at hall
    exact ih hall.2 hx7
  | starTake px =>
    subst hx7
    simp only [List.all_cons, Bool.and_eq_true, tokNoSlash] at hall
    rw [px] at hall
    exact absurd hall.1 (by simp)
  | starSkip _ ih =>
    simp only [List.all_cons, Bool.and_eq_true] at hall
    exact ih hall.2 hx7

theorem ciEq_self (c : Char) : ciEq c c = true := by simp [ciEq]

theorem first_ci_split (c : Char) : ∀ (l : List Char), (∃ y ∈ l, ciEq y c = true) →
    ∃ u y v, l = u ++ y :: v ∧ ciEq y c = true ∧ ∀ z ∈ u, ciEq z c = false := by
  intro l
  induction l with
  | nil => intro h; obtain ⟨y, hy, _⟩ := h; cases hy
  | cons x l ih =>
    intro h
    cases hx : ciEq x c with
    | true => exact ⟨[], x, l, rfl, hx, by intro z hz; cases hz⟩
    | false =>
      obtain ⟨y, hy, hyc⟩ := h
      cases hy with
      | head => rw [hyc] at hx; cases hx
      | tail _ hy' =>
        obtain ⟨u, y', v, heq, hy'c, hu⟩ := ih ⟨y, hy', hyc⟩
        refine ⟨x :: u, y', v, by rw [heq]; rfl, hy'c, ?zz⟩
        intro z hz
        cases hz with
        | head => exact hx
        | tail _ hz' => exact hu z hz'

theorem eats_star_all {p : Char → Bool} {ts : List RTok} :
    ∀ (u : List Char), (∀ z ∈ u, p z = true) →
    ∀ {m : List Char}, Eats ts m → Eats (RTok.star p :: ts) (u ++ m) := by
  intro u
  induction u with
  | nil => intro _ m hm; exact Eats.starStop hm
  | cons z u ih =>
    intro hu m hm
    exact Eats.starStep (hu z (List.mem_cons_self _ _))
      (ih (fun w hw => hu w (List.mem_cons_of_mem _ hw)) hm)

theorem sufOKr_tail {a b z : Char} {l : List Char}
    (h : sufOKr a b (z :: l) = true) : sufOKr a b l = true := by
  cases l with
  | nil => rfl
  | cons w l' =>
    simp only [sufOKr, Bool.and_eq_true] at h
    exact h.2

theorem sufOKr_split {a b : Char} : ∀ (l : List Char), sufOKr a b l = true →
    ∀ (u : List Char) (x : Char) (v : List Char), l = u ++ x :: v → ciEq x a = true →
    ∃ y v', v = y :: v' ∧ ciEq y b = false := by
  intro l
  induction l with
  | nil =>
    intro _ u x v heq _
    exact absurd heq (by simp)
  | cons z l ih =>
    intro hok u x v heq hxa
    cases u with
    | nil =>
      rw [List.nil_append] at heq
      injection heq with h1 h2
      rw [h1, h2] at hok
      cases v with
      | nil =>
        simp only [sufOKr] at hok
        rw [hxa] at hok
        simp at hok
      | cons y v' =>
        simp only [sufOKr, Bool.and_eq_true] at hok
        have h1b := hok.1
        rw [hxa] at h1b
        simp only [Bool.true_and, Bool.not_eq_true'] at h1b
        exact ⟨y, v', rfl, h1b⟩
    | cons w u' =>
      rw [List.cons_append] at heq
      injection heq with h1 h2
      exact ih (sufOKr_tail hok) u' x v h2 hxa

/-! ### Transfer lemmas: a substitution output cannot contain a head
occurrence (with its sentinel somewhere after it) unless the input
already did, because the replacement text can neither contain, begin,
complete, nor be entered by a head match, and contains no sentinel. -/

theorem eats_two_lits_inv {a b : Char} {H' : List RTok} {m : List Char}
    (h : Eats (RTok.lit a :: RTok.lit b :: H') m) :
    ∃ x y m', m = x :: y :: m' ∧ ciEq x a = true ∧ ciEq y b = true ∧ Eats H' m' := by
  obtain ⟨x, m1, hm1, hxa, h1⟩ := eats_lit_inv h
  obtain ⟨y, m2, hm2, hyb, h2⟩ := eats_lit_inv h1
  exact ⟨x, y, m2, by rw [hm1, hm2], hxa, hyb, h2⟩

theorem match_past_repl {a b : Char} {H' : List RTok} {R z pre m suf : List Char}
    (hok : sufOKr a b R = true)
    (he : Eats (RTok.lit a :: RTok.lit b :: H') m)
    (heq : R ++ z = pre ++ m ++ suf) :
    ∃ pre', pre = R ++ pre' ∧ z = pre' ++ m ++ suf := by
  rw [List.append_assoc] at heq
  rcases List.append_eq_append_iff.mp heq with ⟨a', ha1, ha2⟩ | ⟨c', hc1, hc2⟩
  · exact ⟨a', ha1, by rw [ha2, List.append_assoc]⟩
  · cases c' with
    | nil =>
      rw [List.append_nil] at hc1
      rw [List.nil_append] at hc2
      exact ⟨[], by rw [hc1, List.append_nil], by rw [← hc2]; rfl⟩
    | cons x c'' =>
      obtain ⟨x1, y1, m'', hm, hxa, hyb, _⟩ := eats_two_lits_inv he
      rw [hm] at hc2
      simp only [List.cons_append] at hc2
      injection hc2 with e1 hc2'
      subst e1
      obtain ⟨y, v', hcv, hyb'⟩ := sufOKr_split R hok pre x1 c'' hc1 hxa
      rw [hcv] at hc2'
      simp only [List.cons_append] at hc2'
      injection hc2' with e2 _
      rw [← e2] at hyb'
      rw [hyb] at hyb'
      exact Bool.noConfusion hyb'

theorem subOut_char_mem {p : List RTok} {R t out : List Char} (hso : SubOut p R t out)
    (c : Char) (hR : R.all (fun ch => !ciEq ch c) = true) :
    (∃ y ∈ out, ciEq y c = true) → ∃ y ∈ t, ciEq y c = true := by
  induction hso with
  | nil => intro h; exact h
  | copy hso ih =>
    rename_i x t' out'
    intro h
    obtain ⟨y, hy, hyc⟩ := h
    cases hy with
    | head => exact ⟨x, List.mem_cons_self _ _, hyc⟩
    | tail _ hy' =>
      obtain ⟨y', hy2, hy2c⟩ := ih ⟨y, hy', hyc⟩
      exact ⟨y', List.mem_cons_of_mem _ hy2, hy2c⟩
  | repl he hso ih =>
    rename_i mid t' out'
    intro h
    obtain ⟨y, hy, hyc⟩ := h
    rcases List.mem_append.mp hy with hyR | hyO
    · have hb := List.all_eq_true.mp hR y hyR
      rw [hyc] at hb
      exact absurd hb (by simp)
    · obtain ⟨y', hy2, hy2c⟩ := ih ⟨y, hyO, hyc⟩
      exact ⟨y', List.mem_append.mpr (Or.inr hy2), hy2c⟩

theorem subOut_prefix_transfer {p : List RTok} {R t out : List Char}
    (hso : SubOut p R t out) (c : Char)
    (hR0 : ∃ R', R = '/' :: R')
    (hRc : R.all (fun ch => !ciEq ch c) = true) :
    ∀ q : List RTok, q.all tokNoSlash = true →
    (∃ m suf, out = m ++ suf ∧ Eats q m ∧ ∃ y ∈ suf, ciEq y c = true) →
    ∃ m' suf', t = m' ++ suf' ∧ Eats q m' ∧ ∃ y ∈ suf', ciEq y c = true := by
  induction hso with
  | nil =>
    intro q _ h
    obtain ⟨m, suf, heq, _, y, hy, _⟩ := h
    obtain ⟨_, hs⟩ := List.append_eq_nil.mp heq.symm
    subst hs
    cases hy
  | copy hso ih =>
    rename_i x t' out'
    intro q hq h
    obtain ⟨m, suf, heq, he, y, hy, hyc⟩ := h
    cases m with
    | nil =>
      rw [List.nil_append] at heq
      refine ⟨[], x :: t', rfl, he, ?hc⟩
      rw [← heq] at hy
      cases hy with
      | head => exact ⟨x, List.mem_cons_self _ _, hyc⟩
      | tail _ hy' =>
        obtain ⟨y', hy2, hy2c⟩ := subOut_char_mem hso c hRc ⟨y, hy', hyc⟩
        exact ⟨y', List.mem_cons_of_mem _ hy2, hy2c⟩
    | cons x1 m₂ =>
      simp only [List.cons_append] at heq
      injection heq with e1 e2
      obtain ⟨q', hst, he₂⟩ := eats_cons_inv q x m₂ (by rw [e1]; exact he)
      have hq' := step_all hst tokNoSlash hq
      obtain ⟨m₂', suf₂', ht', he₂', y', hy', hyc'⟩ :=
        ih q' hq' ⟨m₂, suf, e2, he₂, y, hy, hyc⟩
      exact ⟨x :: m₂', suf₂', by rw [ht']; rfl,
        step_eats hst he₂', y', hy', hyc'⟩
  | repl he hso ih =>
    rename_i mid t' out'
    intro q hq h
    obtain ⟨m, suf, heq, hem, y, hy, hyc⟩ := h
    cases m with
    | nil =>
      rw [List.nil_append] at heq
      refine ⟨[], mid ++ t', rfl, hem, ?hc2⟩
      rw [← heq] at hy
      rcases List.mem_append.mp hy with hyR | hyO
      · have hb := List.all_eq_true.mp hRc y hyR
        rw [hyc] at hb
        exact absurd hb (by simp)
      · obtain ⟨y', hy2, hy2c⟩ := subOut_char_mem hso c hRc ⟨y, hyO, hyc⟩
        exact ⟨y', List.mem_append.mpr (Or.inr hy2), hy2c⟩
    | cons x1 m₂ =>
      obtain ⟨R', hR'⟩ := hR0
      rw [hR'] at heq
      simp only [List.cons_append] at heq
      injection heq with e1 _
      obtain ⟨q', hst, _⟩ := eats_cons_inv q x1 m₂ hem
      exact (step_slash hst hq e1.symm).elim

theorem subOut_occurs_transfer {p : List RTok} {R t out : List Char}
    (hso : SubOut p R t out) {a b : Char} {H' : List RTok} (c : Char)
    (hH : (RTok.lit a :: RTok.lit b :: H').all tokNoSlash = true)
    (hR0 : ∃ R', R = '/' :: R')
    (hRc : R.all (fun ch => !ciEq ch c) = true)
    (hsuf : sufOKr a b R = true) :
    OccursHTC (RTok.lit a :: RTok.lit b :: H') c out →
    OccursHTC (RTok.lit a :: RTok.lit b :: H') c t := by
  induction hso with
  | nil =>
    intro h
    obtain ⟨pre, m, suf, heq, _, y, hy, _⟩ := h
    rw [List.append_assoc] at heq
    obtain ⟨_, hs⟩ := List.append_eq_nil.mp heq.symm
    obtain ⟨_, hs2⟩ := List.append_eq_nil.mp hs
    subst hs2
    cases hy
  | copy hso ih =>
    rename_i x t' out'
    intro h
    obtain ⟨pre, m, suf, heq, he, y, hy, hyc⟩ := h
    cases pre with
    | nil =>
      rw [List.nil_append] at heq
      cases m with
      | nil => exact absurd he eats_lit_ne_nil
      | cons x1 m₂ =>
        simp only [List.cons_append] at heq
        injection heq with e1 e2
        obtain ⟨q', hst, he₂⟩ := eats_cons_inv _ x m₂ (by rw [e1]; exact he)
        have hq' := step_all hst tokNoSlash hH
        obtain ⟨m₂', suf₂', ht', he₂', y', hy', hyc'⟩ :=
          subOut_prefix_transfer hso c hR0 hRc q' hq' ⟨m₂, suf, e2, he₂, y, hy, hyc⟩
        exact ⟨[], x :: m₂', suf₂', by rw [ht']; rfl,
          step_eats hst he₂', y', hy', hyc'⟩
    | cons z pre' =>
      simp only [List.cons_append, List.append_assoc] at heq
      injection heq with e1 e2
      obtain ⟨pre₂, m₂, suf₂, ht', he₂, y', hy', hyc'⟩ :=
        ih ⟨pre', m, suf, by rw [e2, List.append_assoc], he, y, hy, hyc⟩
      exact ⟨z :: pre₂, m₂, suf₂, by rw [ht', e1]; rfl, he₂, y', hy', hyc'⟩
  | repl he hso ih =>
    rename_i mid t' out'
    intro h
    obtain ⟨pre, m, suf, heq, hem, y, hy, hyc⟩ := h
    obtain ⟨pre', hp1, hp2⟩ := match_past_repl hsuf hem heq
    obtain ⟨pre₂, m₂, suf₂, ht', he₂, y', hy', hyc'⟩ :=
      ih ⟨pre', m, suf, hp2, hem, y, hy, hyc⟩
    exact ⟨mid ++ pre₂, m₂, suf₂, by rw [ht']; simp only [List.append_assoc], he₂,
      y', hy', hyc'⟩

theorem subOut_subAll {p : List RTok} (hp : ∃ c p', p = RTok.lit c :: p') (R : List Char) :
    ∀ (n : Nat) (s : List Char), s.length ≤ n → SubOut p R s (subAll p R s) := by
  intro n
  induction n with
  | zero =>
    intro s hs
    have hnil : s = [] := List.length_eq_zero.mp (Nat.le_zero.mp hs)
    subst hnil
    obtain ⟨c, p', hp'⟩ := hp
    rw [subAll_nomatch_nil (by rw [hp']; exact matchToks_lit_nil c p')]
    exact SubOut.nil
  | succ n ih =>
    intro s hs
    cases hm : matchToks p s with
    | none =>
      cases s with
      | nil => rw [subAll_nomatch_nil hm]; exact SubOut.nil
      | cons x s' =>
        rw [subAll_nomatch_cons hm]
        exact SubOut.copy (ih s' (by simp only [List.length_cons] at hs; omega))
    | some r =>
      obtain ⟨m, hm2, he⟩ := matchToks_eats hm
      obtain ⟨c, p', hp'⟩ := hp
      have hmne : m ≠ [] := by
        intro h0
        rw [h0] at hm2
        rw [hp', h0] at he
        exact eats_lit_ne_nil he
      have hr : r.length < s.length := by
        rw [hm2, List.length_append]
        cases m with
        | nil => exact absurd rfl hmne
        | cons _ _ => simp only [List.length_cons]; omega
      rw [subAll_match hm hr, hm2]
      exact SubOut.repl he (ih r (by omega))

theorem subOut_subAll_self {p : List RTok} (hp : ∃ c p', p = RTok.lit c :: p')
    (R s : List Char) : SubOut p R s (subAll p R s) :=
  subOut_subAll hp R s.length s (Nat.le_refl _)

/-! ### A signature stage clears its own head-then-sentinel occurrences,
and later stages preserve that. -/

theorem sigSideOK_dest {sig : RWSig} (h : sigSideOK sig = true) :
    ∃ a b H', sig.head = RTok.lit a :: RTok.lit b :: H' ∧
      sig.head.all tokNoSlash = true ∧
      sig.repl.data.all (fun ch => !ciEq ch sig.sent) = true ∧
      sufOKr a b sig.repl.data = true ∧
      (∃ R', sig.repl.data = '/' :: R') := by
  unfold sigSideOK at h
  cases hh : sig.head with
  | nil => rw [hh] at h; cases h
  | cons t1 rest1 =>
    cases t1 with
    | opt _ => rw [hh] at h; cases h
    | star _ => rw [hh] at h; cases h
    | lit a =>
      cases rest1 with
      | nil => rw [hh] at h; cases h
      | cons t2 rest2 =>
        cases t2 with
        | opt _ => rw [hh] at h; cases h
        | star _ => rw [hh] at h; cases h
        | lit b =>
          rw [hh] at h
          simp only [Bool.and_eq_true] at h
          obtain ⟨⟨⟨h1, h2⟩, h3⟩, h4⟩ := h
          refine ⟨a, b, rest2, rfl, hh ▸ h1, h2, h3, ?hslash⟩
          cases hr : sig.repl.data with
          | nil => rw [hr] at h4; cases h4
          | cons c0 rest0 =>
            rw [hr] at h4
            have : c0 = '/' := by
              have hb := h4
              simp only [beq_iff_eq] at hb
              exact hb
            exact ⟨rest0, by rw [this]⟩

theorem rwToks_split (sig : RWSig) :
    rwToks sig = sig.head ++
      (neqCls sig.sent :: RTok.lit sig.sent ::
        (if sig.tailOpt then [RTok.opt ';'] else [])) := by
  rw [rwToks, List.append_assoc]
  rfl

theorem rwToks_lit_headed {sig : RWSig} (hok : sigSideOK sig = true) :
    ∃ c p', rwToks sig = RTok.lit c :: p' := by
  obtain ⟨a, b, H', hhead, _⟩ := sigSideOK_dest hok
  rw [rwToks_split, hhead]
  exact ⟨a, _, rfl⟩

theorem eats_optTail (sig : RWSig) :
    Eats (if sig.tailOpt then [RTok.opt ';'] else []) [] := by
  cases sig.tailOpt with
  | true => simp only [if_true]; exact Eats.optSkip Eats.nil
  | false => simp only [Bool.false_eq_true, if_false]; exact Eats.nil

theorem build_full {sig : RWSig} {m rest : List Char} (he : Eats sig.head m)
    (hy : ∃ y ∈ rest, ciEq y sig.sent = true) :
    ∃ mm rr, m ++ rest = mm ++ rr ∧ Eats (rwToks sig) mm := by
  obtain ⟨u, y0, v, hrest, hy0, hu⟩ := first_ci_split sig.sent rest hy
  have hu' : ∀ z ∈ u, (z != sig.sent) = true := by
    intro z hz
    have hzc := hu z hz
    have hne : z ≠ sig.sent := by
      intro he'
      rw [he', ciEq_self] at hzc
      cases hzc
    simp [hne]
  have htail : Eats (neqCls sig.sent :: RTok.lit sig.sent ::
      (if sig.tailOpt then [RTok.opt ';'] else [])) (u ++ [y0]) :=
    eats_star_all u hu' (Eats.lit hy0 (eats_optTail sig))
  refine ⟨m ++ (u ++ [y0]), v, ?heq, ?hev⟩
  · rw [hrest]
    simp only [List.append_assoc, List.cons_append, List.nil_append]
  · rw [rwToks_split]
    exact eats_append_intro he htail

theorem match_at_zero {sig : RWSig} {m rest : List Char} (he : Eats sig.head m)
    (hy : ∃ y ∈ rest, ciEq y sig.sent = true) :
    (matchToks (rwToks sig) (m ++ rest)).isSome = true := by
  obtain ⟨mm, rr, heq, hev⟩ := build_full he hy
  rw [heq]
  exact eats_complete hev rr

theorem htc_gives_search {sig : RWSig} {t : List Char}
    (hocc : OccursHTC sig.head sig.sent t) : searchToks (rwToks sig) t = true := by
  obtain ⟨pre, m, suf, heq, he, y, hy, hyc⟩ := hocc
  obtain ⟨mm, rr, heq2, hev⟩ := build_full he ⟨y, hy, hyc⟩
  refine searchToks_of_occurs ⟨pre, mm, rr, ?hsp, hev⟩
  rw [heq, List.append_assoc, heq2, List.append_assoc]

theorem search_gives_htc {sig : RWSig} {t : List Char}
    (hs : searchToks (rwToks sig) t = true) : OccursHTC sig.head sig.sent t := by
  obtain ⟨pre, m, suf, heq, he⟩ := occurs_of_searchToks t hs
  rw [rwToks_split] at he
  obtain ⟨m1, m2, hm, he1, he2⟩ := eats_append_split he sig.head
    (neqCls sig.sent :: RTok.lit sig.sent ::
      (if sig.tailOpt then [RTok.opt ';'] else [])) rfl
  obtain ⟨ms, mc, hm2, hes, hec⟩ := eats_append_split he2 [neqCls sig.sent]
    (RTok.lit sig.sent :: (if sig.tailOpt then [RTok.opt ';'] else [])) rfl
  obtain ⟨y, mo, hmc, hy, _⟩ := eats_lit_inv hec
  refine ⟨pre, m1, m2 ++ suf, ?hq, he1, y, ?hm, hy⟩
  · rw [heq, hm]; simp only [List.append_assoc]
  · rw [hm2, hmc]
    exact List.mem_append.mpr (Or.inl (List.mem_append.mpr (Or.inr (List.mem_cons_self _ _))))

theorem subAll_clears {sig : RWSig} (hok : sigSideOK sig = true) :
    ∀ (n : Nat) (t : List Char), t.length ≤ n →
    ¬ OccursHTC sig.head sig.sent (subAll (rwToks sig) sig.repl.data t) := by
  obtain ⟨a, b, H', hhead, hnos, hRc, hsuf, hR0⟩ := sigSideOK_dest hok
  have hlit := rwToks_lit_headed hok
  have hnil : ∀ h0 : OccursHTC sig.head sig.sent [], False := by
    intro h0
    obtain ⟨pre, m, suf, heq, _, y, hy, _⟩ := h0
    rw [List.append_assoc] at heq
    obtain ⟨_, hs⟩ := List.append_eq_nil.mp heq.symm
    obtain ⟨_, hs2⟩ := List.append_eq_nil.mp hs
    subst hs2
    cases hy
  intro n
  induction n with
  | zero =>
    intro t ht hocc
    have ht0 : t = [] := List.length_eq_zero.mp (Nat.le_zero.mp ht)
    subst ht0
    obtain ⟨c, p', hp'⟩ := hlit
    rw [subAll_nomatch_nil (by rw [hp']; exact matchToks_lit_nil c p')] at hocc
    exact hnil hocc
  | succ n ih =>
    intro t ht hocc
    cases hm : matchToks (rwToks sig) t with
    | none =>
      cases t with
      | nil =>
        obtain ⟨c, p', hp'⟩ := hlit
        rw [subAll_nomatch_nil (by rw [hp']; exact matchToks_lit_nil c p')] at hocc
        exact hnil hocc
      | cons x t' =>
        rw [subAll_nomatch_cons hm] at hocc
        obtain ⟨pre, m, suf, heq, he, y, hy, hyc⟩ := hocc
        cases pre with
        | cons z pre' =>
          simp only [List.cons_append, List.append_assoc] at heq
          injection heq with e1 e2
          exact ih t' (by simp only [List.length_cons] at ht; omega)
            ⟨pre', m, suf, by rw [e2, List.append_assoc], he, y, hy, hyc⟩
        | nil =>
          rw [List.nil_append] at heq
          cases m with
          | nil =>
            rw [hhead] at he
            exact eats_lit_ne_nil he
          | cons x1 m₂ =>
            simp only [List.cons_append] at heq
            injection heq with e1 e2
            rw [hhead] at he hnos
            obtain ⟨q', hst, he₂⟩ := eats_cons_inv _ x m₂ (by rw [e1]; exact he)
            have hq' := step_all hst tokNoSlash hnos
            obtain ⟨m₂', suf₂', ht', he₂', y', hy', hyc'⟩ :=
              subOut_prefix_transfer (subOut_subAll_self hlit sig.repl.data t')
                sig.sent hR0 hRc q' hq' ⟨m₂, suf, e2, he₂, y, hy, hyc⟩
            have hez : Eats sig.head (x :: m₂') := by
              rw [hhead]
              exact step_eats hst he₂'
            have hiz := match_at_zero hez ⟨y', hy', hyc'⟩
            rw [show (x :: m₂') ++ suf₂' = x :: t' from by rw [ht']; rfl] at hiz
            rw [hm] at hiz
            cases hiz
    | some r =>
      obtain ⟨m0, hm2, he0⟩ := matchToks_eats hm
      have hmne : m0 ≠ [] := by
        intro h0
        obtain ⟨c, p', hp'⟩ := hlit
        rw [hp', h0] at he0
        exact eats_lit_ne_nil he0
      have hr : r.length < t.length := by
        rw [hm2, List.length_append]
        cases m0 with
        | nil => exact absurd rfl hmne
        | cons _ _ => simp only [List.length_cons]; omega
      rw [subAll_match hm hr] at hocc
      obtain ⟨pre, m, suf, heq, he, y, hy, hyc⟩ := hocc
      rw [hhead] at he
      obtain ⟨pre', hp1, hp2⟩ := match_past_repl hsuf he heq
      exact ih r (by omega)
        ⟨pre', m, suf, hp2, by rw [hhead]; exact he, y, hy, hyc⟩

theorem stage_clears {sig : RWSig} (hok : sigSideOK sig = true) (t : List Char) :
    ¬ OccursHTC sig.head sig.sent (stageApply t sig) := by
  unfold stageApply
  cases hs : searchToks (rwToks sig) t with
  | true => simp only [if_true]; exact subAll_clears hok t.length t (Nat.le_refl _)
  | false =>
    simp only [Bool.false_eq_true, if_false]
    intro hocc
    rw [htc_gives_search hocc] at hs
    cases hs

theorem stage_preserves {sig sig' : RWSig} (hok : sigSideOK sig = true)
    (hok' : sigSideOK sig' = true) (hrepl : sig'.repl = sig.repl) (t : List Char)
    (h : ¬ OccursHTC sig.head sig.sent t) :
    ¬ OccursHTC sig.head sig.sent (stageApply t sig') := by
  unfold stageApply
  cases hs : searchToks (rwToks sig') t with
  | false => simpa using h
  | true =>
    simp only [if_true]
    intro hocc
    obtain ⟨a, b, H', hhead, hnos, hRc, hsuf, hR0⟩ := sigSideOK_dest hok
    apply h
    have hso := subOut_subAll_self (rwToks_lit_headed hok') sig'.repl.data t
    rw [hrepl] at hso hocc
    rw [hhead] at hocc hnos
    have hres := subOut_occurs_transfer hso sig.sent hnos hR0 hRc hsuf hocc
    rw [← hhead] at hres
    exact hres

theorem foldl_stage_preserves {sig : RWSig} (hok : sigSideOK sig = true) :
    ∀ (sigs : List RWSig), (∀ s' ∈ sigs, sigSideOK s' = true ∧ s'.repl = sig.repl) →
    ∀ t, ¬ OccursHTC sig.head sig.sent t →
    ¬ OccursHTC sig.head sig.sent (List.foldl stageApply t sigs) := by
  intro sigs
  induction sigs with
  | nil => intro _ t h; exact h
  | cons s0 rest ih =>
    intro hconds t h
    simp only [List.foldl_cons]
    exact ih (fun s hs => hconds s (List.mem_cons_of_mem _ hs)) (stageApply t s0)
      (stage_preserves hok (hconds s0 (List.mem_cons_self _ _)).1
        (hconds s0 (List.mem_cons_self _ _)).2 t h)

theorem foldl_stage_clears :
    ∀ (sigs : List RWSig) (t : List Char),
    (∀ s' ∈ sigs, sigSideOK s' = true ∧ s'.repl = replTxt) →
    ∀ sig ∈ sigs, ¬ OccursHTC sig.head sig.sent (List.foldl stageApply t sigs) := by
  intro sigs
  induction sigs with
  | nil => intro t _ sig hmem; cases hmem
  | cons s0 rest ih =>
    intro t hconds sig hmem
    simp only [List.foldl_cons]
    cases hmem with
    | head =>
      have hc0 := hconds s0 (List.mem_cons_self _ _)
      have hcr : ∀ s' ∈ rest, sigSideOK s' = true ∧ s'.repl = s0.repl := by
        intro s' hs'
        have hc := hconds s' (List.mem_cons_of_mem _ hs')
        exact ⟨hc.1, by rw [hc.2, hc0.2]⟩
      exact foldl_stage_preserves hc0.1 rest hcr (stageApply t s0) (stage_clears hc0.1 t)
    | tail _ hmem' =>
      exact ih (stageApply t s0) (fun s hs => hconds s (List.mem_cons_of_mem _ hs)) sig hmem'

set_option maxHeartbeats 2000000 in
theorem catalogue_conds :
    ∀ sig ∈ frame_busting_patterns, sigSideOK sig = true ∧ sig.repl = replTxt := by
  decide

theorem searches_false_after (t : List Char) :
    ∀ sig ∈ frame_busting_patterns, searchToks (rwToks sig) (applyAllSigs t) = false := by
  intro sig hmem
  cases hs : searchToks (rwToks sig) (applyAllSigs t) with
  | false => rfl
  | true =>
    exact absurd (search_gives_htc hs)
      (foldl_stage_clears frame_busting_patterns t catalogue_conds sig hmem)

theorem foldl_stage_id :
    ∀ (sigs : List RWSig) (t : List Char),
    (∀ sig ∈ sigs, searchToks (rwToks sig) t = false) →
    List.foldl stageApply t sigs = t := by
  intro sigs
  induction sigs with
  | nil => intro t _; rfl
  | cons s0 rest ih =>
    intro t hf
    simp only [List.foldl_cons]
    have h0 : stageApply t s0 = t := by
      unfold stageApply
      rw [hf s0 (List.mem_cons_self _ _)]
      simp
    rw [h0]
    exact ih t (fun s hs => hf s (List.mem_cons_of_mem _ hs))

theorem foldl_sanitize_fst :
    ∀ (sigs : List RWSig) (acc : List Char × List String),
    (List.foldl sanitizeStep acc sigs).1 = List.foldl stageApply acc.1 sigs := by
  intro sigs
  induction sigs with
  | nil => intro acc; rfl
  | cons s0 rest ih =>
    intro acc
    simp only [List.foldl_cons]
    rw [ih (sanitizeStep acc s0)]
    have hfst : (sanitizeStep acc s0).1 = stageApply acc.1 s0 := by
      unfold sanitizeStep stageApply
      cases hs : searchToks (rwToks s0) acc.1 with
      | true => simp
      | false => simp
    rw [hfst]

theorem foldl_sanitize_nosearch :
    ∀ (sigs : List RWSig) (t : List Char) (ms : List String),
    (∀ sig ∈ sigs, searchToks (rwToks sig) t = false) →
    List.foldl sanitizeStep (t, ms) sigs = (t, ms) := by
  intro sigs
  induction sigs with
  | nil => intro t ms _; rfl
  | cons s0 rest ih =>
    intro t ms hf
    simp only [List.foldl_cons]
    have h0 : sanitizeStep (t, ms) s0 = (t, ms) := by
      unfold sanitizeStep
      rw [show ((t, ms) : List Char × List String).1 = t from rfl,
        hf s0 (List.mem_cons_self _ _)]
      simp
    rw [h0]
    exact ih t ms (fun s hs => hf s (List.mem_cons_of_mem _ hs))

theorem sanitizeScriptChars_fst (s : List Char) :
    (sanitizeScriptChars s).1 = applyAllSigs s :=
  foldl_sanitize_fst frame_busting_patterns (s, [])

theorem sanitizeScriptChars_idem (s : List Char) :
    sanitizeScriptChars (applyAllSigs s) = (applyAllSigs s, []) := by
  unfold sanitizeScriptChars
  exact foldl_sanitize_nosearch frame_busting_patterns (applyAllSigs s) []
    (searches_false_after s)

theorem sanitize_javascript_nil : sanitize_javascript [] = ([], []) := rfl

theorem sanitize_javascript_script_some (s : String) (rest : List Node) :
    sanitize_javascript (Node.script (some s) :: rest) =
      (Node.script (some (String.mk (sanitizeScriptChars s.data).1)) ::
        (sanitize_javascript rest).1,
       (sanitizeScriptChars s.data).2 ++ (sanitize_javascript rest).2) := rfl

theorem sanitize_javascript_script_none (rest : List Node) :
    sanitize_javascript (Node.script none :: rest) =
      (Node.script none :: (sanitize_javascript rest).1, (sanitize_javascript rest).2) := rfl

theorem sanitize_javascript_meta (m : MetaTag) (rest : List Node) :
    sanitize_javascript (Node.meta m :: rest) =
      (Node.meta m :: (sanitize_javascript rest).1, (sanitize_javascript rest).2) := rfl

theorem sanitize_javascript_other (r : String) (rest : List Node) :
    sanitize_javascript (Node.other r :: rest) =
      (Node.other r :: (sanitize_javascript rest).1, (sanitize_javascript rest).2) := rfl

theorem string_data_mk (l : List Char) : (String.mk l).data = l := rfl

theorem sanitize_javascript_idem (doc : List Node) :
    sanitize_javascript (sanitize_javascript doc).1 = ((sanitize_javascript doc).1, []) := by
  induction doc with
  | nil => rfl
  | cons n rest ih =>
    cases n with
    | script body =>
      cases body with
      | some s =>
        have h1 := sanitizeScriptChars_idem s.data
        rw [← sanitizeScriptChars_fst s.data] at h1
        rw [sanitize_javascript_script_some,
          show ((Node.script (some (String.mk (sanitizeScriptChars s.data).1)) ::
              (sanitize_javascript rest).1,
              (sanitizeScriptChars s.data).2 ++ (sanitize_javascript rest).2)).1 =
            Node.script (some (String.mk (sanitizeScriptChars s.data).1)) ::
              (sanitize_javascript rest).1 from rfl,
          sanitize_javascript_script_some, string_data_mk, h1, ih]
        simp
      | none =>
        rw [sanitize_javascript_script_none,
          show ((Node.script none :: (sanitize_javascript rest).1,
              (sanitize_javascript rest).2)).1 =
            Node.script none :: (sanitize_javascript rest).1 from rfl,
          sanitize_javascript_script_none, ih]
    | meta m =>
      rw [sanitize_javascript_meta,
        show ((Node.meta m :: (sanitize_javascript rest).1,
            (sanitize_javascript rest).2)).1 =
          Node.meta m :: (sanitize_javascript rest).1 from rfl,
        sanitize_javascript_meta, ih]
    | other r =>
      rw [sanitize_javascript_other,
        show ((Node.other r :: (sanitize_javascript rest).1,
            (sanitize_javascript rest).2)).1 =
          Node.other r :: (sanitize_javascript rest).1 from rfl,
        sanitize_javascript_other, ih]

/-! ### Attribute-map lemmas. -/

theorem find_setPairs_eq (k v : String) : ∀ (l : List (String × String)),
    (setPairs k v l).find? (fun kv => kv.1 == k) = some (k, v) := by
  intro l
  induction l with
  | nil =>
    simp only [setPairs]
    rw [List.find?_cons_of_pos _ (by simp)]
  | cons kv rest ih =>
    simp only [setPairs]
    cases h : kv.1 == k with
    | true =>
      simp only [if_true]
      rw [List.find?_cons_of_pos _ (by simp)]
    | false =>
      simp only [Bool.false_eq_true, if_false]
      rw [List.find?_cons_of_neg _ (by simp [h])]
      exact ih

theorem getAttr_setAttr_self (m : MetaTag) (k v : String) :
    getAttr (setAttr m k v) k = v := by
  unfold getAttr setAttr
  rw [find_setPairs_eq k v m.attrs]

theorem find_setPairs_ne (k v k' : String) (hne : (k' == k) = false) :
    ∀ (l : List (String × String)),
    (setPairs k v l).find? (fun kv => kv.1 == k') = l.find? (fun kv => kv.1 == k') := by
  have hkk : (k == k') = false :=
    beq_eq_false_iff_ne.mpr (Ne.symm (beq_eq_false_iff_ne.mp hne))
  intro l
  induction l with
  | nil =>
    simp only [setPairs]
    rw [List.find?_cons_of_neg _ (by simp [hkk])]
  | cons kv rest ih =>
    simp only [setPairs]
    cases h : kv.1 == k with
    | true =>
      simp only [if_true]
      rw [List.find?_cons_of_neg _ (by simp [hkk]),
        List.find?_cons_of_neg _ (by simp [beq_iff_eq.mp h, hkk])]
    | false =>
      simp only [Bool.false_eq_true, if_false]
      cases h2 : kv.1 == k' with
      | true =>
        rw [List.find?_cons_of_pos _ (by simp [h2]), List.find?_cons_of_pos _ (by simp [h2])]
      | false =>
        rw [List.find?_cons_of_neg _ (by simp [h2]), List.find?_cons_of_neg _ (by simp [h2])]
        exact ih

theorem getAttr_setAttr_ne (m : MetaTag) (k v k' : String) (hne : k' ≠ k) :
    getAttr (setAttr m k v) k' = getAttr m k' := by
  unfold getAttr setAttr
  rw [find_setPairs_ne k v k' (by simp [hne]) m.attrs]

/-! ### The compatibility assessor as a conjunction of conditions. -/

theorem assessMetaLoop_iff (remaining : List String) : ∀ (metas : List MetaTag),
    assessMetaLoop remaining metas = true ↔
      (remaining = [] ∧
       (∀ m ∈ metas,
         lowerStr (getAttr m "http-equiv") ≠ "x-frame-options" ∧
         ¬(lowerStr (getAttr m "http-equiv") = "content-security-policy" ∧
           containsSub "frame-ancestors" (lowerStr (getAttr m "content")) = true ∧
           containsSub noneTok (lowerStr (getAttr m "content")) = true))) := by
  intro metas
  induction metas with
  | nil =>
    simp only [assessMetaLoop]
    constructor
    · intro h
      refine ⟨?hrem, by intro m hm; cases hm⟩
      cases remaining with
      | nil => rfl
      | cons a l => simp at h
    · intro h
      rw [h.1]
      rfl
  | cons m rest ih =>
    simp only [assessMetaLoop]
    cases h1 : lowerStr (getAttr m "http-equiv") == "x-frame-options" with
    | true =>
      simp only [if_true]
      constructor
      · intro h; cases h
      · intro h
        exact absurd (beq_iff_eq.mp h1) (h.2 m (List.mem_cons_self _ _)).1
    | false =>
      simp only [Bool.false_eq_true, if_false]
      cases h2 : lowerStr (getAttr m "http-equiv") == "content-security-policy" &&
          containsSub "frame-ancestors" (lowerStr (getAttr m "content")) &&
          containsSub noneTok (lowerStr (getAttr m "content")) with
      | true =>
        simp only [if_true]
        constructor
        · intro h; cases h
        · intro h
          simp only [Bool.and_eq_true, beq_iff_eq] at h2
          exact absurd ⟨h2.1.1, h2.1.2, h2.2⟩ (h.2 m (List.mem_cons_self _ _)).2
      | false =>
        simp only [Bool.false_eq_true, if_false]
        rw [ih]
        constructor
        · intro h
          refine ⟨h.1, ?hall⟩
          intro m' hm'
          cases hm' with
          | head =>
            refine ⟨fun hx => ?hx1, fun hx => ?hx2⟩
            · rw [show (lowerStr (getAttr m "http-equiv") == "x-frame-options") = true from
                by rw [hx]; exact beq_self_eq_true _] at h1
              cases h1
            · rw [show (lowerStr (getAttr m "http-equiv") == "content-security-policy" &&
                  containsSub "frame-ancestors" (lowerStr (getAttr m "content")) &&
                  containsSub noneTok (lowerStr (getAttr m "content"))) = true from by
                simp only [Bool.and_eq_true, beq_iff_eq]
                exact ⟨⟨hx.1, hx.2.1⟩, hx.2.2⟩] at h2
              cases h2
          | tail _ hm'' => exact h.2 m' hm''
        · intro h
          exact ⟨h.1, fun m' hm' => h.2 m' (List.mem_cons_of_mem _ hm')⟩

/-! ### Meta-tag normalizer equations. -/

theorem clean_meta_tags_nil : clean_meta_tags [] = ([], []) := rfl

theorem clean_meta_tags_script (b : Option String) (rest : List Node) :
    clean_meta_tags (Node.script b :: rest) =
      (Node.script b :: (clean_meta_tags rest).1, (clean_meta_tags rest).2) := rfl

theorem clean_meta_tags_other (r : String) (rest : List Node) :
    clean_meta_tags (Node.other r :: rest) =
      (Node.other r :: (clean_meta_tags rest).1, (clean_meta_tags rest).2) := rfl

theorem clean_meta_tags_meta_cons (m : MetaTag) (rest : List Node) :
    clean_meta_tags (Node.meta m :: rest) =
      (if lowerStr (getAttr m "http-equiv") == "x-frame-options" then
        ((clean_meta_tags rest).1,
         "Removed X-Frame-Options meta tag" :: (clean_meta_tags rest).2)
      else if lowerStr (getAttr m "http-equiv") == "content-security-policy" then
        (if containsSub "frame-ancestors" (lowerStr (getAttr m "content")) then
          (if (cspNewContent (getAttr m "content")).isEmpty then
            ((clean_meta_tags rest).1, "Removed CSP meta tag" :: (clean_meta_tags rest).2)
          else
            (Node.meta (setAttr m "content" (cspNewContent (getAttr m "content"))) ::
              (clean_meta_tags rest).1,
             "Modified CSP meta tag to remove frame-ancestors" :: (clean_meta_tags rest).2))
        else (Node.meta m :: (clean_meta_tags rest).1, (clean_meta_tags rest).2))
      else (Node.meta m :: (clean_meta_tags rest).1, (clean_meta_tags rest).2)) := rfl

theorem clean_meta_xfo {m : MetaTag} (rest : List Node)
    (h1 : (lowerStr (getAttr m "http-equiv") == "x-frame-options") = true) :
    clean_meta_tags (Node.meta m :: rest) =
      ((clean_meta_tags rest).1,
       "Removed X-Frame-Options meta tag" :: (clean_meta_tags rest).2) := by
  rw [clean_meta_tags_meta_cons, if_pos h1]

theorem clean_meta_plain {m : MetaTag} (rest : List Node)
    (h1 : (lowerStr (getAttr m "http-equiv") == "x-frame-options") = false)
    (h2 : (lowerStr (getAttr m "http-equiv") == "content-security-policy") = false) :
    clean_meta_tags (Node.meta m :: rest) =
      (Node.meta m :: (clean_meta_tags rest).1, (clean_meta_tags rest).2) := by
  rw [clean_meta_tags_meta_cons, if_neg (by simp [h1]), if_neg (by simp [h2])]

theorem clean_meta_csp_nofa {m : MetaTag} (rest : List Node)
    (h1 : (lowerStr (getAttr m "http-equiv") == "x-frame-options") = false)
    (h2 : (lowerStr (getAttr m "http-equiv") == "content-security-policy") = true)
    (h3 : containsSub "frame-ancestors" (lowerStr (getAttr m "content")) = false) :
    clean_meta_tags (Node.meta m :: rest) =
      (Node.meta m :: (clean_meta_tags rest).1, (clean_meta_tags rest).2) := by
  rw [clean_meta_tags_meta_cons, if_neg (by simp [h1]), if_pos h2, if_neg (by simp [h3])]

theorem clean_meta_csp_removed {m : MetaTag} (rest : List Node)
    (h1 : (lowerStr (getAttr m "http-equiv") == "x-frame-options") = false)
    (h2 : (lowerStr (getAttr m "http-equiv") == "content-security-policy") = true)
    (h3 : containsSub "frame-ancestors" (lowerStr (getAttr m "content")) = true)
    (h4 : (cspNewContent (getAttr m "content")).isEmpty = true) :
    clean_meta_tags (Node.meta m :: rest) =
      ((clean_meta_tags rest).1, "Removed CSP meta tag" :: (clean_meta_tags rest).2) := by
  rw [clean_meta_tags_meta_cons, if_neg (by simp [h1]), if_pos h2, if_pos h3, if_pos h4]

theorem clean_meta_csp_modified {m : MetaTag} (rest : List Node)
    (h1 : (lowerStr (getAttr m "http-equiv") == "x-frame-options") = false)
    (h2 : (lowerStr (getAttr m "http-equiv") == "content-security-policy") = true)
    (h3 : containsSub "frame-ancestors" (lowerStr (getAttr m "content")) = true)
    (h4 : (cspNewContent (getAttr m "content")).isEmpty = false) :
    clean_meta_tags (Node.meta m :: rest) =
      (Node.meta (setAttr m "content" (cspNewContent (getAttr m "content"))) ::
        (clean_meta_tags rest).1,
       "Modified CSP meta tag to remove frame-ancestors" :: (clean_meta_tags rest).2) := by
  rw [clean_meta_tags_meta_cons, if_neg (by simp [h1]), if_pos h2, if_pos h3,
    if_neg (by simp [h4])]

theorem metasOf_script (b : Option String) (rest : List Node) :
    metasOf (Node.script b :: rest) = metasOf rest := rfl

theorem metasOf_other (r : String) (rest : List Node) :
    metasOf (Node.other r :: rest) = metasOf rest := rfl

theorem metasOf_meta (m : MetaTag) (rest : List Node) :
    metasOf (Node.meta m :: rest) = m :: metasOf rest := rfl

theorem metaNormNode_meta (m : MetaTag) :
    metaNormNode (Node.meta m) =
      (if lowerStr (getAttr m "http-equiv") == "x-frame-options" then none
      else if lowerStr (getAttr m "http-equiv") == "content-security-policy" then
        if containsSub "frame-ancestors" (lowerStr (getAttr m "content")) then
          if (cspNewContent (getAttr m "content")).isEmpty then none
          else some (Node.meta (setAttr m "content" (cspNewContent (getAttr m "content"))))
        else some (Node.meta m)
      else some (Node.meta m)) := rfl

theorem sanitize_javascript_append : ∀ (a b : List Node),
    sanitize_javascript (a ++ b) =
      ((sanitize_javascript a).1 ++ (sanitize_javascript b).1,
       (sanitize_javascript a).2 ++ (sanitize_javascript b).2) := by
  intro a b
  induction a with
  | nil => rfl
  | cons n rest ih =>
    cases n with
    | script body =>
      cases body with
      | some s =>
        rw [List.cons_append, sanitize_javascript_script_some, ih,
          sanitize_javascript_script_some]
        simp [List.append_assoc]
      | none =>
        rw [List.cons_append, sanitize_javascript_script_none, ih,
          sanitize_javascript_script_none]
        rfl
    | meta m =>
      rw [List.cons_append, sanitize_javascript_meta, ih, sanitize_javascript_meta]
      rfl
    | other r =>
      rw [List.cons_append, sanitize_javascript_other, ih, sanitize_javascript_other]
      rfl

/-! ### Claim theorems. -/

/-- Claim C1: `assess_iframe_compatibility` returns `true` exactly when
the detector finds nothing, no meta element has `http-equiv` equal
(case-insensitively) to `x-frame-options`, and no meta element has
`http-equiv` `content-security-policy` with a content containing both
`frame-ancestors` and `'none'` (case-insensitively); in particular the
result is `false` whenever the detector output is non-empty. -/
theorem c1_assess_iff (text : String) (metas : List MetaTag) :
    (assess_iframe_compatibility text metas = true ↔
      (detect_frame_busting_patterns text = [] ∧
       ∀ m ∈ metas,
         lowerStr (getAttr m "http-equiv") ≠ "x-frame-options" ∧
         ¬(lowerStr (getAttr m "http-equiv") = "content-security-policy" ∧
           containsSub "frame-ancestors" (lowerStr (getAttr m "content")) = true ∧
           containsSub noneTok (lowerStr (getAttr m "content")) = true))) ∧
    (detect_frame_busting_patterns text ≠ [] →
      assess_iframe_compatibility text metas = false) := by
  constructor
  · exact assessMetaLoop_iff (detect_frame_busting_patterns text) metas
  · intro hne
    cases h : assess_iframe_compatibility text metas with
    | false => rfl
    | true =>
      exact absurd ((assessMetaLoop_iff (detect_frame_busting_patterns text) metas).mp h).1 hne

/-- Witness for C1 at a concrete input: `framekiller` is detected, so
the assessor answers `false`. -/
theorem c1_assess_iff_witness :
    detect_frame_busting_patterns "framekiller" ≠ [] ∧
    assess_iframe_compatibility "framekiller" [] = false :=
  ⟨by decide, (c1_assess_iff "framekiller" []).2 (by decide)⟩

/-- Claim C2: in any document containing a script element whose inline
text is exactly `if (window !== window.top) { top.location = location; }`,
the rewriter replaces that whole body with exactly
`// Frame busting code removed` and produces exactly one modification
entry for that script, naming the first guard signature — the inner
`top.location` reassignment signature does not additionally fire. -/
theorem c2_scenarioA (a b : List Node) :
    sanitize_javascript (a ++ Node.script (some bodyScenarioA) :: b) =
      ((sanitize_javascript a).1 ++
        Node.script (some replTxt) :: (sanitize_javascript b).1,
       (sanitize_javascript a).2 ++
        ("Removed frame-busting pattern: " ++ sigWinTop.src) ::
          (sanitize_javascript b).2) := by
  have hconc : sanitizeScriptChars bodyScenarioA.data =
      (replTxt.data, ["Removed frame-busting pattern: " ++ sigWinTop.src]) := by
    decide
  rw [sanitize_javascript_append, sanitize_javascript_script_some, hconc]
  rfl

/-- Claim C6: the script rewriter is idempotent — a second application
leaves every node (in particular every script text) unchanged and
records no modification. -/
theorem c6_rewriter_idempotent (doc : List Node) :
    sanitize_javascript (sanitize_javascript doc).1 = ((sanitize_javascript doc).1, []) :=
  sanitize_javascript_idem doc

/-- Claim C8 (amended): on any fetch exception the orchestrator emits a
record with `error` set to the exception's message (which may be empty),
`html_content` absent, `iframe_compatible` false, `original_blocked`
true, and empty modification and pattern lists; being a total function,
it lets no exception escape. -/
theorem c8_error_record (url e : String) (parse : String → List Node)
    (serialize : List Node → String) :
    mainRun url (Except.error e) parse serialize =
      ⟨url, some e, none, false, true, [], []⟩ := rfl

/-- Counterexample to C8 as stated: an exception whose message is the
empty string yields `error = some ""`, which is not a non-empty
message. -/
theorem c8_counterexample :
    (mainRun "http://example.com" (Except.error "") (fun _ => []) (fun _ => "")).error =
      some "" ∧ ("" : String).length = 0 :=
  ⟨rfl, rfl⟩

/-- Claim C10: on the empty input text the detector reports nothing and
the assessor (over the empty page's meta list) answers `true`. -/
theorem c10_empty_text :
    detect_frame_busting_patterns "" = [] ∧ assess_iframe_compatibility "" [] = true := by
  decide

/-- Claim C7: the modification record is append-only and never
deduplicated — processing a concatenated document concatenates the
records, and two scripts matching the same signature produce the same
entry twice. -/
theorem c7_append_only :
    (∀ a b : List Node,
      (sanitize_javascript (a ++ b)).2 =
        (sanitize_javascript a).2 ++ (sanitize_javascript b).2) ∧
    (sanitize_javascript
        [Node.script (some "top.location = location;"),
         Node.script (some "top.location = location;")]).2 =
      ["Removed frame-busting pattern: " ++ sigTopLoc.src,
       "Removed frame-busting pattern: " ++ sigTopLoc.src] := by
  constructor
  · intro a b
    induction a with
    | nil => rfl
    | cons n rest ih =>
      cases n with
      | script body =>
        cases body with
        | some s =>
          rw [List.cons_append,
            show (sanitize_javascript (Node.script (some s) :: (rest ++ b))).2 =
              (sanitizeScriptChars s.data).2 ++ (sanitize_javascript (rest ++ b)).2 from rfl,
            show (sanitize_javascript (Node.script (some s) :: rest)).2 =
              (sanitizeScriptChars s.data).2 ++ (sanitize_javascript rest).2 from rfl,
            ih, List.append_assoc]
        | none =>
          rw [List.cons_append,
            show (sanitize_javascript (Node.script none :: (rest ++ b))).2 =
              (sanitize_javascript (rest ++ b)).2 from rfl,
            show (sanitize_javascript (Node.script none :: rest)).2 =
              (sanitize_javascript rest).2 from rfl, ih]
      | meta m =>
        rw [List.cons_append,
          show (sanitize_javascript (Node.meta m :: (rest ++ b))).2 =
            (sanitize_javascript (rest ++ b)).2 from rfl,
          show (sanitize_javascript (Node.meta m :: rest)).2 =
            (sanitize_javascript rest).2 from rfl, ih]
      | other r =>
        rw [List.cons_append,
          show (sanitize_javascript (Node.other r :: (rest ++ b))).2 =
            (sanitize_javascript (rest ++ b)).2 from rfl,
          show (sanitize_javascript (Node.other r :: rest)).2 =
            (sanitize_javascript rest).2 from rfl, ih]
  · decide

theorem detect_ne_nil_of_mem {text : String} {nm : String} {toks : List RTok}
    (hmem : (nm, toks) ∈ detection_patterns)
    (hs : searchToks toks text.data = true) :
    detect_frame_busting_patterns text ≠ [] := by
  unfold detect_frame_busting_patterns
  intro h0
  rw [List.map_eq_nil_iff] at h0
  have hmem2 : (nm, toks) ∈ detection_patterns.filter (fun pr => searchToks pr.2 text.data) :=
    List.mem_filter.mpr ⟨hmem, by simpa using hs⟩
  rw [h0] at hmem2
  cases hmem2

theorem head_search_detect (nm : String) {sig : RWSig} {text : String}
    (hmem : (nm, sig.head) ∈ detection_patterns)
    (hs : searchToks (rwToks sig) text.data = true) :
    detect_frame_busting_patterns text ≠ [] := by
  apply detect_ne_nil_of_mem hmem
  obtain ⟨pre, m, suf, heq, he⟩ := occurs_of_searchToks _ hs
  rw [rwToks_split] at he
  obtain ⟨m1, m2, hm, he1, _⟩ := eats_append_split he sig.head _ rfl
  exact searchToks_of_occurs
    ⟨pre, m1, m2 ++ suf, by rw [heq, hm]; simp only [List.append_assoc], he1⟩

/-- Claim C5 (amended): for the six guard signatures and the two
`replace`-call signatures — those whose regex extends a detection
signature — any rewrite-signature match implies a non-empty detector
output.  (The three location-reassignment rewrite signatures are
excluded: their detection counterparts require specific right-hand
sides.) -/
theorem c5_guard_superset (text : String) :
    (searchToks (rwToks sigWinTop) text.data = true →
      detect_frame_busting_patterns text ≠ []) ∧
    (searchToks (rwToks sigSelfTop) text.data = true →
      detect_frame_busting_patterns text ≠ []) ∧
    (searchToks (rwToks sigParentWin) text.data = true →
      detect_frame_busting_patterns text ≠ []) ∧
    (searchToks (rwToks sigTopSelf) text.data = true →
      detect_frame_busting_patterns text ≠ []) ∧
    (searchToks (rwToks sigFrameElement) text.data = true →
      detect_frame_busting_patterns text ≠ []) ∧
    (searchToks (rwToks sigWinParent) text.data = true →
      detect_frame_busting_patterns text ≠ []) ∧
    (searchToks (rwToks sigTopReplace) text.data = true →
      detect_frame_busting_patterns text ≠ []) ∧
    (searchToks (rwToks sigWinTopReplace) text.data = true →
      detect_frame_busting_patterns text ≠ []) := by
  refine
    ⟨fun hs => head_search_detect "if\\s*\\(\\s*window\\s*!==?\\s*window\\.top\\s*\\)" ?m1 hs,
     fun hs => head_search_detect "if\\s*\\(\\s*self\\s*!==?\\s*top\\s*\\)" ?m2 hs,
     fun hs => head_search_detect "if\\s*\\(\\s*parent\\s*!==?\\s*window\\s*\\)" ?m3 hs,
     fun hs => head_search_detect "if\\s*\\(\\s*top\\s*!==?\\s*self\\s*\\)" ?m4 hs,
     fun hs => head_search_detect "if\\s*\\(\\s*window\\.frameElement\\s*\\)" ?m5 hs,
     fun hs => head_search_detect "if\\s*\\(\\s*window\\.parent\\s*!==?\\s*window\\s*\\)" ?m6 hs,
     fun hs => head_search_detect "top\\.location\\.replace\\(" ?m7 hs,
     fun hs => head_search_detect "window\\.top\\.location\\.replace\\(" ?m8 hs⟩
  case m1 => repeat first | exact List.Mem.head _ | apply List.Mem.tail
  case m2 => repeat first | exact List.Mem.head _ | apply List.Mem.tail
  case m3 => repeat first | exact List.Mem.head _ | apply List.Mem.tail
  case m4 => repeat first | exact List.Mem.head _ | apply List.Mem.tail
  case m5 => repeat first | exact List.Mem.head _ | apply List.Mem.tail
  case m6 => repeat first | exact List.Mem.head _ | apply List.Mem.tail
  case m7 => repeat first | exact List.Mem.head _ | apply List.Mem.tail
  case m8 => repeat first | exact List.Mem.head _ | apply List.Mem.tail

/-- Witness for C5: a page with `if(self!=top){x}` triggers a guard
rewrite signature, and the detector output is indeed non-empty. -/
theorem c5_guard_superset_witness :
    searchToks (rwToks sigSelfTop) "if(self!=top)\x7bx\x7d".data = true ∧
    detect_frame_busting_patterns "if(self!=top)\x7bx\x7d" ≠ [] :=
  ⟨by decide, (c5_guard_superset "if(self!=top)\x7bx\x7d").2.1 (by decide)⟩

/-- Counterexample to C5 as stated: `top.location = 5;` is matched by
the bare location-reassignment rewrite signature, yet no detection
signature matches it, so the detector output is empty. -/
theorem c5_counterexample :
    searchToks (rwToks sigTopLoc) cexC5Text.data = true ∧
    detect_frame_busting_patterns cexC5Text = [] := by
  decide

/-- Claim C3: a `content-security-policy` meta whose content mentions
`frame-ancestors` has the directive stripped (up to its terminating
`;`), doubled `;;` collapsed, and ends trimmed; a non-empty remainder is
written back with the "Modified" record entry, an empty remainder
removes the element with the "Removed" entry; on
`default-src 'self'; frame-ancestors 'none'` the remainder is
`default-src 'self'`. -/
theorem c3_csp_meta :
    (∀ m : MetaTag,
      lowerStr (getAttr m "http-equiv") = "content-security-policy" →
      containsSub "frame-ancestors" (lowerStr (getAttr m "content")) = true →
      clean_meta_tags [Node.meta m] =
        (if (cspNewContent (getAttr m "content")).isEmpty then
          ([], ["Removed CSP meta tag"])
        else
          ([Node.meta (setAttr m "content" (cspNewContent (getAttr m "content")))],
           ["Modified CSP meta tag to remove frame-ancestors"]))) ∧
    cspNewContent cspScenarioCContent = cspScenarioCResult := by
  constructor
  · intro m h1 h2
    have hb1 : (lowerStr (getAttr m "http-equiv") == "x-frame-options") = false := by
      rw [h1]; decide
    have hb2 : (lowerStr (getAttr m "http-equiv") == "content-security-policy") = true := by
      rw [h1]; decide
    cases h4 : (cspNewContent (getAttr m "content")).isEmpty with
    | true =>
      rw [clean_meta_csp_removed [] hb1 hb2 h2 h4, clean_meta_tags_nil]
      simp
    | false =>
      rw [clean_meta_csp_modified [] hb1 hb2 h2 h4, clean_meta_tags_nil]
      simp
  · decide

/-- Witness for C3: the scenario C meta is rewritten in place, its
content becoming `default-src 'self'`, with the "Modified" entry. -/
theorem c3_csp_meta_witness :
    clean_meta_tags [Node.meta scenarioCMeta] =
      ([Node.meta (setAttr scenarioCMeta "content" (cspNewContent (getAttr scenarioCMeta "content")))],
       ["Modified CSP meta tag to remove frame-ancestors"]) := by
  rw [c3_csp_meta.1 scenarioCMeta (by decide) (by decide)]
  rw [if_neg (by decide)]

/-- Claim C4 (amended): after the normalizer runs, no meta element has
`http-equiv` `x-frame-options`, and no surviving
`content-security-policy` meta's content contains `frame-ancestors` —
provided that for no CSP meta the single removal pass re-concatenates
the text surrounding removed directive spans into the substring
`frame-ancestors` again (the unamended claim fails exactly there). -/
theorem c4_exhaustive_removal : ∀ (doc : List Node),
    (∀ m ∈ metasOf doc,
      lowerStr (getAttr m "http-equiv") = "content-security-policy" →
      containsSub "frame-ancestors" (lowerStr (getAttr m "content")) = true →
      containsSub "frame-ancestors" (lowerStr (cspNewContent (getAttr m "content"))) = false) →
    ∀ n ∈ (clean_meta_tags doc).1, ∀ m : MetaTag, n = Node.meta m →
      lowerStr (getAttr m "http-equiv") ≠ "x-frame-options" ∧
      (lowerStr (getAttr m "http-equiv") = "content-security-policy" →
       containsSub "frame-ancestors" (lowerStr (getAttr m "content")) = false) := by
  intro doc
  induction doc with
  | nil =>
    intro _ n hn
    rw [clean_meta_tags_nil] at hn
    cases hn
  | cons nd rest ih =>
    intro hrec n hn m hm
    cases nd with
    | script b =>
      rw [clean_meta_tags_script,
        show ((Node.script b :: (clean_meta_tags rest).1, (clean_meta_tags rest).2)).1 =
          Node.script b :: (clean_meta_tags rest).1 from rfl] at hn
      cases hn with
      | head => exact Node.noConfusion hm
      | tail _ hn' =>
        exact ih (fun m' hm' => hrec m' (metasOf_script b rest ▸ hm')) n hn' m hm
    | other r =>
      rw [clean_meta_tags_other,
        show ((Node.other r :: (clean_meta_tags rest).1, (clean_meta_tags rest).2)).1 =
          Node.other r :: (clean_meta_tags rest).1 from rfl] at hn
      cases hn with
      | head => exact Node.noConfusion hm
      | tail _ hn' =>
        exact ih (fun m' hm' => hrec m' (metasOf_other r rest ▸ hm')) n hn' m hm
    | meta m0 =>
      have hrec0 := hrec m0 (metasOf_meta m0 rest ▸ List.mem_cons_self _ _)
      have hrecR : ∀ m' ∈ metasOf rest,
          lowerStr (getAttr m' "http-equiv") = "content-security-policy" →
          containsSub "frame-ancestors" (lowerStr (getAttr m' "content")) = true →
          containsSub "frame-ancestors" (lowerStr (cspNewContent (getAttr m' "content"))) = false :=
        fun m' hm' => hrec m' (metasOf_meta m0 rest ▸ List.mem_cons_of_mem _ hm')
      cases h1 : lowerStr (getAttr m0 "http-equiv") == "x-frame-options" with
      | true =>
        rw [clean_meta_xfo rest h1,
          show (((clean_meta_tags rest).1,
            "Removed X-Frame-Options meta tag" :: (clean_meta_tags rest).2)).1 =
            (clean_meta_tags rest).1 from rfl] at hn
        exact ih hrecR n hn m hm
      | false =>
        cases h2 : lowerStr (getAttr m0 "http-equiv") == "content-security-policy" with
        | false =>
          rw [clean_meta_plain rest h1 h2,
            show ((Node.meta m0 :: (clean_meta_tags rest).1, (clean_meta_tags rest).2)).1 =
              Node.meta m0 :: (clean_meta_tags rest).1 from rfl] at hn
          cases hn with
          | head =>
            obtain rfl : m0 = m := by injection hm
            constructor
            · intro hx
              rw [hx] at h1
              simp at h1
            · intro hcsp
              rw [hcsp] at h2
              simp at h2
          | tail _ hn' => exact ih hrecR n hn' m hm
        | true =>
          cases h3 : containsSub "frame-ancestors" (lowerStr (getAttr m0 "content")) with
          | false =>
            rw [clean_meta_csp_nofa rest h1 h2 h3,
              show ((Node.meta m0 :: (clean_meta_tags rest).1, (clean_meta_tags rest).2)).1 =
                Node.meta m0 :: (clean_meta_tags rest).1 from rfl] at hn
            cases hn with
            | head =>
              obtain rfl : m0 = m := by injection hm
              constructor
              · intro hx
                rw [hx] at h1
                simp at h1
              · intro _
                exact h3
            | tail _ hn' => exact ih hrecR n hn' m hm
          | true =>
            cases h4 : (cspNewContent (getAttr m0 "content")).isEmpty with
            | true =>
              rw [clean_meta_csp_removed rest h1 h2 h3 h4,
                show (((clean_meta_tags rest).1,
                  "Removed CSP meta tag" :: (clean_meta_tags rest).2)).1 =
                  (clean_meta_tags rest).1 from rfl] at hn
              exact ih hrecR n hn m hm
            | false =>
              rw [clean_meta_csp_modified rest h1 h2 h3 h4,
                show ((Node.meta (setAttr m0 "content" (cspNewContent (getAttr m0 "content"))) ::
                    (clean_meta_tags rest).1,
                  "Modified CSP meta tag to remove frame-ancestors" ::
                    (clean_meta_tags rest).2)).1 =
                  Node.meta (setAttr m0 "content" (cspNewContent (getAttr m0 "content"))) ::
                    (clean_meta_tags rest).1 from rfl] at hn
              cases hn with
              | head =>
                obtain rfl : setAttr m0 "content" (cspNewContent (getAttr m0 "content")) = m := by
                  injection hm
                constructor
                · rw [getAttr_setAttr_ne m0 "content" _ "http-equiv" (by decide)]
                  intro hx
                  rw [beq_iff_eq.mp h2] at hx
                  exact absurd hx (by decide)
                · intro _
                  rw [getAttr_setAttr_self]
                  exact hrec0 (beq_iff_eq.mp h2) h3
              | tail _ hn' => exact ih hrecR n hn' m hm

/-- Counterexample to C4 as stated: on the content
`frame-anceframe-ancestors;stors` the single removal pass glues the
surrounding text back into `frame-ancestors`, so the surviving CSP meta
still contains the substring. -/
theorem c4_counterexample :
    (clean_meta_tags [Node.meta cexRecreationMeta]).1 =
      [Node.meta ⟨[("http-equiv", "content-security-policy"),
        ("content", "frame-ancestors")]⟩] ∧
    containsSub "frame-ancestors" (lowerStr "frame-ancestors") = true := by
  decide

/-- Witness for C4: on a document with an `X-Frame-Options` meta and the
scenario C CSP meta the hypothesis holds, and the surviving rewritten
meta is clean. -/
theorem c4_exhaustive_removal_witness :
    lowerStr (getAttr (setAttr scenarioCMeta "content"
        (cspNewContent (getAttr scenarioCMeta "content"))) "http-equiv") ≠
      "x-frame-options" ∧
    (lowerStr (getAttr (setAttr scenarioCMeta "content"
        (cspNewContent (getAttr scenarioCMeta "content"))) "http-equiv") =
      "content-security-policy" →
     containsSub "frame-ancestors"
       (lowerStr (getAttr (setAttr scenarioCMeta "content"
         (cspNewContent (getAttr scenarioCMeta "content"))) "content")) = false) :=
  c4_exhaustive_removal [Node.meta xfoDenyMeta, Node.meta scenarioCMeta] (by decide)
    (Node.meta (setAttr scenarioCMeta "content"
      (cspNewContent (getAttr scenarioCMeta "content")))) (by decide) _ rfl

/-- Claim C9: the meta-tag normalizer is exactly a per-node filter-map —
any node that is not an `x-frame-options` meta or a
`content-security-policy` meta whose content mentions `frame-ancestors`
is left unchanged, and a modified CSP meta keeps every attribute other
than `content`. -/
theorem c9_frame_condition :
    (∀ doc : List Node, (clean_meta_tags doc).1 = doc.filterMap metaNormNode) ∧
    (∀ n : Node,
      (∀ m : MetaTag, n = Node.meta m →
        lowerStr (getAttr m "http-equiv") ≠ "x-frame-options" ∧
        (lowerStr (getAttr m "http-equiv") = "content-security-policy" →
         containsSub "frame-ancestors" (lowerStr (getAttr m "content")) = false)) →
      metaNormNode n = some n) ∧
    (∀ (m : MetaTag) (k : String), k ≠ "content" →
      getAttr (setAttr m "content" (cspNewContent (getAttr m "content"))) k =
        getAttr m k) := by
  refine ⟨?hfm, ?hid, ?hattr⟩
  case hfm =>
    intro doc
    induction doc with
    | nil => rfl
    | cons nd rest ih =>
      cases nd with
      | script b =>
        rw [clean_meta_tags_script,
          show ((Node.script b :: (clean_meta_tags rest).1, (clean_meta_tags rest).2)).1 =
            Node.script b :: (clean_meta_tags rest).1 from rfl,
          List.filterMap_cons_some
            (show metaNormNode (Node.script b) = some (Node.script b) from rfl), ih]
      | other r =>
        rw [clean_meta_tags_other,
          show ((Node.other r :: (clean_meta_tags rest).1, (clean_meta_tags rest).2)).1 =
            Node.other r :: (clean_meta_tags rest).1 from rfl,
          List.filterMap_cons_some
            (show metaNormNode (Node.other r) = some (Node.other r) from rfl), ih]
      | meta m0 =>
        cases h1 : lowerStr (getAttr m0 "http-equiv") == "x-frame-options" with
        | true =>
          have hnorm : metaNormNode (Node.meta m0) = none := by
            rw [metaNormNode_meta, if_pos h1]
          rw [clean_meta_xfo rest h1,
            show (((clean_meta_tags rest).1,
              "Removed X-Frame-Options meta tag" :: (clean_meta_tags rest).2)).1 =
              (clean_meta_tags rest).1 from rfl,
            List.filterMap_cons_none hnorm, ih]
        | false =>
          cases h2 : lowerStr (getAttr m0 "http-equiv") == "content-security-policy" with
          | false =>
            have hnorm : metaNormNode (Node.meta m0) = some (Node.meta m0) := by
              rw [metaNormNode_meta, if_neg (by simp [h1]), if_neg (by simp [h2])]
            rw [clean_meta_plain rest h1 h2,
              show ((Node.meta m0 :: (clean_meta_tags rest).1, (clean_meta_tags rest).2)).1 =
                Node.meta m0 :: (clean_meta_tags rest).1 from rfl,
              List.filterMap_cons_some hnorm, ih]
          | true =>
            cases h3 : containsSub "frame-ancestors" (lowerStr (getAttr m0 "content")) with
            | false =>
              have hnorm : metaNormNode (Node.meta m0) = some (Node.meta m0) := by
                rw [metaNormNode_meta, if_neg (by simp [h1]), if_pos h2, if_neg (by simp [h3])]
              rw [clean_meta_csp_nofa rest h1 h2 h3,
                show ((Node.meta m0 :: (clean_meta_tags rest).1, (clean_meta_tags rest).2)).1 =
                  Node.meta m0 :: (clean_meta_tags rest).1 from rfl,
                List.filterMap_cons_some hnorm, ih]
            | true =>
              cases h4 : (cspNewContent (getAttr m0 "content")).isEmpty with
              | true =>
                have hnorm : metaNormNode (Node.meta m0) = none := by
                  rw [metaNormNode_meta, if_neg (by simp [h1]), if_pos h2, if_pos h3, if_pos h4]
                rw [clean_meta_csp_removed rest h1 h2 h3 h4,
                  show (((clean_meta_tags rest).1,
                    "Removed CSP meta tag" :: (clean_meta_tags rest).2)).1 =
                    (clean_meta_tags rest).1 from rfl,
                  List.filterMap_cons_none hnorm, ih]
              | false =>
                have hnorm : metaNormNode (Node.meta m0) =
                    some (Node.meta (setAttr m0 "content"
                      (cspNewContent (getAttr m0 "content")))) := by
                  rw [metaNormNode_meta, if_neg (by simp [h1]), if_pos h2, if_pos h3, if_neg (by simp [h4])]
                rw [clean_meta_csp_modified rest h1 h2 h3 h4,
                  show ((Node.meta (setAttr m0 "content"
                      (cspNewContent (getAttr m0 "content"))) ::
                      (clean_meta_tags rest).1,
                    "Modified CSP meta tag to remove frame-ancestors" ::
                      (clean_meta_tags rest).2)).1 =
                    Node.meta (setAttr m0 "content" (cspNewContent (getAttr m0 "content"))) ::
                      (clean_meta_tags rest).1 from rfl,
                  List.filterMap_cons_some hnorm, ih]
  case hid =>
    intro n h
    cases n with
    | script b => rfl
    | other r => rfl
    | meta m =>
      have hm := h m rfl
      rw [metaNormNode_meta, if_neg (by simp [hm.1])]
      cases h2 : lowerStr (getAttr m "http-equiv") == "content-security-policy" with
      | false => simp only [Bool.false_eq_true, if_false]
      | true =>
        simp only [eq_self_iff_true, if_true]
        rw [if_neg (by simp [hm.2 (beq_iff_eq.mp h2)])]
  case hattr =>
    intro m k hk
    exact getAttr_setAttr_ne m "content" _ k hk

/-- Witness for C9: a non-meta node is left unchanged, and the rewritten
scenario C meta keeps its `http-equiv` attribute. -/
theorem c9_frame_condition_witness :
    metaNormNode (Node.other "p") = some (Node.other "p") ∧
    getAttr (setAttr scenarioCMeta "content"
      (cspNewContent (getAttr scenarioCMeta "content"))) "http-equiv" =
      getAttr scenarioCMeta "http-equiv" :=
  ⟨c9_frame_condition.2.1 (Node.other "p") (fun m hm => Node.noConfusion hm),
   c9_frame_condition.2.2 scenarioCMeta "http-equiv" (by decide)⟩

end Scrape
